import Mathlib

/-!
# UpdateLinux: `update_program.c`

A shallow embedding of the text-processing and message-passing parts of
`update_program.c`, and theorems about them.

Conventions of the embedding.

* A byte is a `Char`; a byte sequence (the content of a file, the output of a
  command, the content of a `char` buffer) is a `List Char`.
* `fopen`/`popen` are the argument of the modelled function: `none` when the call
  returns `NULL`, `some content` when it gives a stream delivering `content`.
* A `char *` into a buffer is the list of bytes from the pointed position on, so
  `p + k` is `p.drop k`; a buffer read as a C string ends before its first NUL byte
  (`cstr`).
* `unsigned long` is the 64-bit type of the LP64 Linux targets of the program; a
  `double` is an IEEE 754 binary64 and is carried as an exact fraction.
* `main` calls `gtk_init` before the lookups, which sets the locale from the
  environment; the decimal point of that locale, which `printf` writes for `%.2f`, is an
  argument of the modelled function (`decimal_point`, the string of
  `localeconv()->decimal_point`).
-/

namespace UpdateProgram

/-! ## The C library functions the program calls -/

/-- The NUL byte that ends a C string. -/
def NUL : Char := Char.ofNat 0

/-- The bytes of a buffer seen as a C string: everything before the first NUL byte. -/
def cstr (buf : List Char) : List Char :=
  buf.takeWhile (fun c => c != NUL)

/-- The reading loop inside `fgets`: with room for `room` more bytes, bytes are moved
from the stream to the buffer until the room is used up, the stream ends, or a newline
has been stored. The result is the bytes stored and the stream that is left. -/
def fgets_read : Nat → List Char → List Char × List Char
  | 0, fp => ([], fp)
  | _ + 1, [] => ([], [])
  | room + 1, c :: fp =>
    if c = '\n' then ([c], fp)
    else (c :: (fgets_read room fp).1, (fgets_read room fp).2)

/-- The call `fgets(buf, size, fp)`: `none` (the `NULL` result) at end of file, otherwise
the bytes stored in the buffer (at most `size - 1`, a newline only as the last one) and
the rest of the stream. -/
def fgets (size : Nat) (fp : List Char) : Option (List Char × List Char) :=
  match fp with
  | [] => none
  | _ :: _ => some (fgets_read (size - 1) fp)

/-- The successive results of `fgets(buf, size, fp)` until it returns `NULL`, for at most
`fuel` calls. -/
def fgets_calls (size : Nat) : Nat → List Char → List (List Char)
  | 0, _ => []
  | fuel + 1, fp =>
    match fgets size fp with
    | none => []
    | some (buf, rest) => buf :: fgets_calls size fuel rest

/-- The sequence of buffers that a loop `while (fgets(buf, size, fp))` sees when it runs to
the end of the stream. Every successful call takes at least one byte (for `size ≥ 2`), so
as many calls as the stream has bytes always reach the end of the stream
(`fgets_all_flatten`). -/
def fgets_all (size : Nat) (fp : List Char) : List (List Char) :=
  fgets_calls size fp.length fp

/-- The call `strstr(s, needle)`: the position of the first occurrence of `needle` in `s`
(as the bytes from there on), `none` when there is none. -/
def strstr : List Char → List Char → Option (List Char)
  | [], needle => if needle = [] then some [] else none
  | c :: s, needle =>
    if needle.isPrefixOf (c :: s) then some (c :: s) else strstr s needle

/-- The call `strchr(s, ch)` for a byte `ch` other than NUL: the position of the first
`ch` in `s`, `none` when there is none. -/
def strchr : List Char → Char → Option (List Char)
  | [], _ => none
  | c :: s, ch => if c = ch then some (c :: s) else strchr s ch

/-- The call `strcspn(s, reject)`: the length of the longest initial part of `s` with no
byte of `reject`. -/
def strcspn (s reject : List Char) : Nat :=
  (s.takeWhile (fun c => !reject.contains c)).length

/-- The assignment `s[k] = '\0'` for `k` at most the length of the string `s`: the string
ends at `k`. -/
def terminate_at (s : List Char) (k : Nat) : List Char :=
  s.take k

/-- The test `strncmp(s, t, n) == 0`: the two strings agree on their first `n` bytes (or
are equal, when shorter). -/
def strncmp_eq (s t : List Char) (n : Nat) : Bool :=
  s.take n == t.take n

/-- The C `isspace` for a byte: the six white-space bytes of the "C" locale, which are
white space in every locale. -/
def isspace (c : Char) : Bool :=
  c = ' ' || c = '\t' || c = '\n' || c = Char.ofNat 11 || c = Char.ofNat 12 || c = '\r'

/-- The C `isdigit`. -/
def isdigit (c : Char) : Bool :=
  '0'.toNat ≤ c.toNat && c.toNat ≤ '9'.toNat

/-- The largest `unsigned long` (LP64). -/
def ULONG_MAX : Nat := 2 ^ 64 - 1

/-- The value of a run of decimal digits, most significant first, continuing `acc`. -/
def digits_value (acc : Nat) : List Char → Nat
  | [] => acc
  | c :: s => digits_value (10 * acc + (c.toNat - '0'.toNat)) s

/-- The conversion `%lu` of `sscanf`: white space is skipped, then an optional sign and a
non-empty run of decimal digits are read as by `strtoul`: a value that does not fit gives
`ULONG_MAX`, a minus sign negates modulo `2 ^ 64`. `none` is a matching failure (no
digit). -/
def scan_lu (s : List Char) : Option Nat :=
  let s1 := s.dropWhile isspace
  let neg := s1.head? = some '-'
  let s2 := if s1.head? = some '-' ∨ s1.head? = some '+' then s1.drop 1 else s1
  let ds := s2.takeWhile isdigit
  if ds = [] then none
  else
    let v := digits_value 0 ds
    some (if ULONG_MAX < v then ULONG_MAX else if neg then (2 ^ 64 - v) % 2 ^ 64 else v)

/-- The call `sscanf(line, "MemTotal: %lu kB", &mem_kb)`, as the value it stores in
`mem_kb` (`none`: nothing is stored). The input must start with the bytes `MemTotal:`;
the blank of the format skips any white space; then comes the `%lu` conversion. What
follows the number does not change what is stored. -/
def sscanf_MemTotal (line : List Char) : Option Nat :=
  if "MemTotal:".toList.isPrefixOf line then
    scan_lu ((line.drop "MemTotal:".toList.length).dropWhile isspace)
  else none

/-- The number of binary digits of `n`, for `n < 2 ^ fuel`. -/
def bit_length : Nat → Nat → Nat
  | 0, _ => 0
  | fuel + 1, n => if n = 0 then 0 else bit_length fuel (n / 2) + 1

/-- The conversion of an `unsigned long` to `double` (IEEE 754 binary64, 53 significant
binary digits, round to nearest, ties to even, as on the Linux targets of the program):
the value itself when it has at most 53 binary digits, otherwise the nearest multiple of
`2 ^ (digits - 53)`, a tie going to the even 53-digit significand. The result is the
integer value of the double. -/
def ulong_to_double (n : Nat) : Nat :=
  let sh := bit_length 64 n - 53
  let q := n / 2 ^ sh
  let r := n % 2 ^ sh
  if 2 ^ sh < 2 * r ∨ (2 * r = 2 ^ sh ∧ q % 2 = 1) then (q + 1) * 2 ^ sh else q * 2 ^ sh

/-- The number of hundredths that `%.2f` prints for the non-negative value `num / den`:
the C library prints the exact value of the double rounded to nearest, an exact tie
going to the even last digit. -/
def round_hundredths (num den : Nat) : Nat :=
  let q := 100 * num / den
  let r := 100 * num % den
  if den < 2 * r ∨ (2 * r = den ∧ q % 2 = 1) then q + 1 else q

/-- The decimal digits of `n`, as printed by `printf`. -/
def decimal (n : Nat) : List Char :=
  Nat.toDigits 10 n

/-- What `printf` writes for `%.2f` and the non-negative double of value `num / den`:
the digits of the whole part, the decimal point of the locale in force and two digits. -/
def printf_2f (decimal_point : List Char) (num den : Nat) : List Char :=
  decimal (round_hundredths num den / 100) ++ decimal_point ++
    [Nat.digitChar (round_hundredths num den % 100 / 10),
     Nat.digitChar (round_hundredths num den % 10)]

/-! ## The program -/

/-- The path of the update script. -/
def UPDATE_SCRIPT : String := "./update_script.sh"

/-- The loop of `get_cpu_info` over the buffers read from `/proc/cpuinfo`: `model` at the
end of the loop, `none` for `NULL`. The inner `Option` is `none` when `colon + 2` points
behind the terminating NUL of the line: the program then reads what earlier reads, or
nothing at all, left in the buffer, which the embedding does not follow. -/
def get_cpu_info_loop : List (List Char) → Option (Option (List Char))
  | [] => none
  | buf :: more =>
    let line := cstr buf
    match strstr line "model name".toList with
    | none => get_cpu_info_loop more
    | some _ =>
      match strchr line ':' with
      | none => get_cpu_info_loop more
      | some colon =>
        if colon.length < 2 then some none
        else
          let model := "CPU: ".toList ++ colon.drop 2
          some (some (terminate_at model (strcspn model "\n".toList)))

/-- The function `get_cpu_info`; `fp` is the result of `fopen("/proc/cpuinfo", "r")`.
The result is `none` when the program reads behind the end of the line (see
`get_cpu_info_loop`). -/
def get_cpu_info (fp : Option (List Char)) : Option (List Char) :=
  match fp with
  | none => some "CPU: Unknown".toList
  | some content =>
    match get_cpu_info_loop (fgets_all 256 content) with
    | none => some "CPU: Unknown".toList
    | some model => model

/-- The loop of `get_ram_info` over the buffers read from `/proc/meminfo`: `mem_kb` at the
end of the loop. -/
def get_ram_info_loop : List (List Char) → Nat
  | [] => 0
  | buf :: more =>
    let line := cstr buf
    match strstr line "MemTotal".toList with
    | none => get_ram_info_loop more
    | some _ => (sscanf_MemTotal line).getD 0

/-- The function `get_ram_info`; `fp` is the result of `fopen("/proc/meminfo", "r")` and
`decimal_point` the decimal point of the locale in force when the function is called
(`main` calls it after `gtk_init`, which sets the locale from the environment). The double
`mem_kb / 1048576.0` is the fraction `ulong_to_double mem_kb / 1048576`: the division by a
power of two is exact. -/
def get_ram_info (decimal_point : List Char) (fp : Option (List Char)) : List Char :=
  match fp with
  | none => "RAM: Unknown".toList
  | some content =>
    let mem_kb := get_ram_info_loop (fgets_all 256 content)
    if mem_kb = 0 then "RAM: Unknown".toList
    else
      "RAM: ".toList ++ printf_2f decimal_point (ulong_to_double mem_kb) 1048576 ++
        " GB".toList

/-- The function `get_gpu_info`; `fp` is the result of `popen("lspci | grep -i 'vga'", "r")`,
that is the output of the command. -/
def get_gpu_info (fp : Option (List Char)) : List Char :=
  match fp with
  | none => "GPU: Unknown".toList
  | some out =>
    match fgets 256 out with
    | none => "GPU: Unknown".toList
    | some (buf, _) =>
      let buffer := cstr buf
      match strstr buffer "VGA compatible controller:".toList with
      | some found =>
        let marker :=
          (found.drop "VGA compatible controller:".toList.length).dropWhile (fun c => c = ' ')
        let marker :=
          match strchr marker '(' with
          | some paren => terminate_at marker (marker.length - paren.length)
          | none => marker
        "GPU: ".toList ++ terminate_at marker (strcspn marker "\n".toList)
      | none =>
        "GPU: ".toList ++ terminate_at buffer (strcspn buffer "\n".toList)

/-- The loop of `get_distro_info` over the buffers read from `/etc/os-release`: `distro`
at the end of the loop, `none` for `NULL`. -/
def get_distro_info_loop : List (List Char) → Option (List Char)
  | [] => none
  | buf :: more =>
    let line := cstr buf
    if strncmp_eq line "PRETTY_NAME=".toList 12 then
      match strchr line '=' with
      | none => get_distro_info_loop more
      | some eq =>
        let start := eq.drop 1
        let start := if start.head? = some '"' then start.drop 1 else start
        let start :=
          match strchr start '"' with
          | some e => terminate_at start (start.length - e.length)
          | none => start
        some ("Distro: ".toList ++ start)
    else get_distro_info_loop more

/-- The function `get_distro_info`; `fp` is the result of `fopen("/etc/os-release", "r")`. -/
def get_distro_info (fp : Option (List Char)) : List Char :=
  match fp with
  | none => "Distro: Unknown".toList
  | some content =>
    match get_distro_info_loop (fgets_all 256 content) with
    | none => "Distro: Unknown".toList
    | some distro => distro

/-- A `GtkLabel *`: the identity of a label widget. -/
abbrev GtkLabel := Nat

/-- The structure `UpdateStatusData` that carries one update from the worker thread to
the main thread. -/
structure UpdateStatusData where
  /-- The label to update. -/
  status_label : GtkLabel
  /-- The text to show. -/
  text : List Char
  deriving DecidableEq

/-- The labels as the callbacks change them: the calls of `gtk_label_set_text` made so far,
oldest first, each with its label and its text. -/
abbrev Gui := List (GtkLabel × List Char)

/-- The callback `update_status_cb`: it sets the text of the label and returns `FALSE`,
which removes the source after this one run. -/
def update_status_cb (user_data : UpdateStatusData) (gui : Gui) : Gui × Bool :=
  (gui ++ [(user_data.status_label, user_data.text)], false)

/-- The text that `run_update_script` queues for one buffer read from the script:
the buffer is ended at its first newline and copied as a C string. -/
def status_text (buf : List Char) : List Char :=
  terminate_at (cstr buf) (strcspn (cstr buf) "\n".toList)

/-- The function `run_update_script`, as the values it passes to `g_idle_add`, in order;
`arg` is the label, `fp` is the result of `popen(UPDATE_SCRIPT, "r")`, that is the output
of the script. -/
def run_update_script (arg : GtkLabel) (fp : Option (List Char)) : List UpdateStatusData :=
  match fp with
  | none => [{ status_label := arg, text := "Error: Could not run update script.".toList }]
  | some out =>
    (fgets_all 256 out).map (fun buf => { status_label := arg, text := status_text buf })

/-! ## The hand-off from the worker thread to the main thread -/

/-- Modelled from the spec: the idle queue of the GLib main loop, which is not part of
the program's source. The spec describes it as a FIFO queue with one consumer; it holds
the values passed to `g_idle_add` whose callback has not run yet, oldest first. -/
abbrev IdleQueue := List UpdateStatusData

/-- Modelled from the spec: `g_idle_add(update_status_cb, ud)` puts `ud` at the end of
the idle queue. -/
def g_idle_add (ud : UpdateStatusData) (idle : IdleQueue) : IdleQueue :=
  idle ++ [ud]

/-- The state of one worker thread and of the main thread. -/
structure Bridge where
  /-- The values the worker has still to pass to `g_idle_add`, next first. -/
  to_emit : List UpdateStatusData
  /-- The idle queue. -/
  idle : IdleQueue
  /-- The calls of `gtk_label_set_text` made so far. -/
  gui : Gui

/-- The thread that takes the next step. -/
inductive Turn where
  | worker
  | main_loop
  deriving DecidableEq

/-- Modelled from the spec: one step of the hand-off. A worker step is the next call of
`g_idle_add` (nothing, when the worker has finished). A main loop step runs the callback of
the oldest entry of the idle queue (nothing, when the queue is empty) and removes the
entry, unless the callback returns `TRUE`, in which case it is queued again. -/
def Bridge.step (b : Bridge) : Turn → Bridge
  | Turn.worker =>
    match b.to_emit with
    | [] => b
    | ud :: more => { b with to_emit := more, idle := g_idle_add ud b.idle }
  | Turn.main_loop =>
    match b.idle with
    | [] => b
    | ud :: more =>
      { b with
        idle := if (update_status_cb ud b.gui).2 then more ++ [ud] else more
        gui := (update_status_cb ud b.gui).1 }

/-- The state after the steps of a schedule, taken from left to right. -/
def Bridge.run (b : Bridge) (schedule : List Turn) : Bridge :=
  schedule.foldl Bridge.step b

/-- The state when the worker starts: nothing queued, no text set by a callback. -/
def Bridge.start (emits : List UpdateStatusData) : Bridge :=
  { to_emit := emits, idle := [], gui := [] }

/-! ## Words of the specification -/

/-- The lines of a text: the parts between newlines, without the newlines; a text that
ends with a newline has no further, empty line after it. -/
def text_lines : List Char → List (List Char)
  | [] => []
  | c :: s =>
    if c = '\n' then [] :: text_lines s
    else
      match text_lines s with
      | [] => [[c]]
      | l :: ls => (c :: l) :: ls

/-- The text made of the given lines, each followed by a newline. -/
def unlines : List (List Char) → List Char
  | [] => []
  | l :: ls => l ++ '\n' :: unlines ls

/-- The decimal with two fractional digits for a number of hundredths, written with the
given decimal point. -/
def two_decimals (decimal_point : List Char) (h : Nat) : List Char :=
  decimal (h / 100) ++ decimal_point ++ [Nat.digitChar (h % 100 / 10), Nat.digitChar (h % 10)]

/-- The number `d` is `n` but for a rounding to 53 significant binary digits: the two
differ by at most `n / 2 ^ 53`. -/
def rounded_to_double (n d : Nat) : Prop :=
  2 ^ 53 * (d - n) ≤ n ∧ 2 ^ 53 * (n - d) ≤ n

/-- The number `h` of hundredths is a nearest one to `n / 1048576`: they differ by at
most half a hundredth. -/
def nearest_hundredths (n h : Nat) : Prop :=
  1048576 * h ≤ 100 * n + 524288 ∧ 100 * n ≤ 1048576 * h + 524288


/-! ## Reading with `fgets` -/

theorem fgets_read_append (room : Nat) (fp : List Char) :
    (fgets_read room fp).1 ++ (fgets_read room fp).2 = fp := by
  induction fp generalizing room with
  | nil => cases room <;> simp [fgets_read]
  | cons c fp ih =>
    cases room with
    | zero => simp [fgets_read]
    | succ room =>
      by_cases hc : c = '\n'
      · simp [fgets_read, hc]
      · simp [fgets_read, hc, ih]

theorem fgets_read_length_le (room : Nat) (fp : List Char) :
    (fgets_read room fp).1.length ≤ room := by
  induction fp generalizing room with
  | nil => cases room <;> simp [fgets_read]
  | cons c fp ih =>
    cases room with
    | zero => simp [fgets_read]
    | succ room =>
      by_cases hc : c = '\n'
      · simp [fgets_read, hc]
      · simpa [fgets_read, hc] using ih room

theorem fgets_read_rest_lt (room : Nat) (hroom : 0 < room) (c : Char) (fp : List Char) :
    (fgets_read room (c :: fp)).2.length < fp.length + 1 := by
  obtain ⟨room, rfl⟩ := Nat.exists_eq_succ_of_ne_zero (Nat.pos_iff_ne_zero.mp hroom)
  have h := congrArg List.length (fgets_read_append room fp)
  by_cases hc : c = '\n'
  · simp [fgets_read, hc]
  · simp only [fgets_read, hc, if_false]
    simp only [List.length_append] at h
    omega

theorem fgets_calls_fuel (fuel : Nat) :
    ∀ fp : List Char, fp.length ≤ fuel → fgets_calls 256 fuel fp = fgets_all 256 fp := by
  induction fuel using Nat.strong_induction_on with
  | _ fuel ih =>
    intro fp hfp
    cases fp with
    | nil => cases fuel <;> simp [fgets_all, fgets_calls, fgets]
    | cons c fp =>
      cases fuel with
      | zero => simp at hfp
      | succ fuel =>
        have hlt := fgets_read_rest_lt 255 (by decide) c fp
        simp only [List.length_cons] at hfp
        have h1 := ih fuel (Nat.lt_succ_self _) (fgets_read 255 (c :: fp)).2 (by omega)
        have h2 := ih fp.length (by omega) (fgets_read 255 (c :: fp)).2 (by omega)
        simp only [fgets_all, fgets_calls, fgets, List.length_cons]
        rw [h1]
        simp only [fgets_all] at h2 ⊢
        rw [h2]

theorem fgets_all_nil : fgets_all 256 [] = [] := by
  simp [fgets_all, fgets_calls]

theorem fgets_all_cons (c : Char) (fp : List Char) :
    fgets_all 256 (c :: fp) =
      (fgets_read 255 (c :: fp)).1 :: fgets_all 256 (fgets_read 255 (c :: fp)).2 := by
  have hlt := fgets_read_rest_lt 255 (by decide) c fp
  have h := fgets_calls_fuel fp.length (fgets_read 255 (c :: fp)).2 (by omega)
  simp only [fgets_all, List.length_cons, fgets_calls, fgets]
  rw [h]
  rfl

/-- No byte of the stream is lost or invented by the reading loop: the buffers, put
together, are the stream (so the fuel of `fgets_all` never runs out before the end). -/
theorem fgets_all_flatten_aux (n : Nat) :
    ∀ fp : List Char, fp.length ≤ n → (fgets_all 256 fp).flatten = fp := by
  induction n with
  | zero =>
    intro fp hfp
    cases fp with
    | nil => simp [fgets_all_nil]
    | cons c fp => simp at hfp
  | succ n ih =>
    intro fp hfp
    cases fp with
    | nil => simp [fgets_all_nil]
    | cons c fp =>
      have hlt := fgets_read_rest_lt 255 (by decide) c fp
      simp only [List.length_cons] at hfp
      rw [fgets_all_cons, List.flatten_cons, ih _ (by omega)]
      exact fgets_read_append _ _

/-- No byte of the stream is lost or invented by the reading loop: the buffers, put
together, are the stream (so the fuel of `fgets_all` never runs out before the end). -/
theorem fgets_all_flatten (fp : List Char) : (fgets_all 256 fp).flatten = fp :=
  fgets_all_flatten_aux fp.length fp (Nat.le_refl _)

theorem fgets_all_of_ne_nil (fp : List Char) (h : fp ≠ []) :
    fgets_all 256 fp = (fgets_read 255 fp).1 :: fgets_all 256 (fgets_read 255 fp).2 := by
  cases fp with
  | nil => exact absurd rfl h
  | cons c fp => exact fgets_all_cons c fp

theorem fgets_read_line (room : Nat) (l rest : List Char) (hl : '\n' ∉ l)
    (hlen : l.length < room) : fgets_read room (l ++ '\n' :: rest) = (l ++ ['\n'], rest) := by
  induction l generalizing room with
  | nil =>
    obtain ⟨room, rfl⟩ := Nat.exists_eq_succ_of_ne_zero (Nat.pos_iff_ne_zero.mp hlen)
    simp [fgets_read]
  | cons c l ih =>
    simp only [List.mem_cons, not_or] at hl
    simp only [List.length_cons] at hlen
    obtain ⟨room, rfl⟩ := Nat.exists_eq_succ_of_ne_zero (by omega : room ≠ 0)
    have hc : c ≠ '\n' := fun h => hl.1 h.symm
    simp [fgets_read, hc, ih room hl.2 (by omega)]

theorem fgets_read_eof (room : Nat) (l : List Char) (hl : '\n' ∉ l) (hlen : l.length ≤ room) :
    fgets_read room l = (l, []) := by
  induction l generalizing room with
  | nil => cases room <;> simp [fgets_read]
  | cons c l ih =>
    simp only [List.mem_cons, not_or] at hl
    simp only [List.length_cons] at hlen
    obtain ⟨room, rfl⟩ := Nat.exists_eq_succ_of_ne_zero (by omega : room ≠ 0)
    have hc : c ≠ '\n' := fun h => hl.1 h.symm
    simp [fgets_read, hc, ih room hl.2 (by omega)]

theorem fgets_read_long (room : Nat) (l rest : List Char) (hl : '\n' ∉ l)
    (hlen : room ≤ l.length) :
    fgets_read room (l ++ rest) = (l.take room, l.drop room ++ rest) := by
  induction l generalizing room with
  | nil =>
    have : room = 0 := by simpa using hlen
    subst this
    simp [fgets_read]
  | cons c l ih =>
    simp only [List.mem_cons, not_or] at hl
    simp only [List.length_cons] at hlen
    cases room with
    | zero => simp [fgets_read]
    | succ room =>
      have hc : c ≠ '\n' := fun h => hl.1 h.symm
      simp [fgets_read, hc, ih room hl.2 (by omega)]

theorem fgets_read_starts (room : Nat) (p rest : List Char) (hp : '\n' ∉ p)
    (hlen : p.length ≤ room) : ∃ x, (fgets_read room (p ++ rest)).1 = p ++ x := by
  induction p generalizing room with
  | nil => exact ⟨_, rfl⟩
  | cons c p ih =>
    simp only [List.mem_cons, not_or] at hp
    simp only [List.length_cons] at hlen
    obtain ⟨room, rfl⟩ := Nat.exists_eq_succ_of_ne_zero (by omega : room ≠ 0)
    have hc : c ≠ '\n' := fun h => hp.1 h.symm
    obtain ⟨x, hx⟩ := ih room hp.2 (by omega)
    exact ⟨x, by simp [fgets_read, hc, hx]⟩

theorem fgets_all_one_line (l : List Char) (hl : '\n' ∉ l) (hlen : l.length ≤ 254) :
    fgets_all 256 (l ++ ['\n']) = [l ++ ['\n']] := by
  rw [fgets_all_of_ne_nil _ (by simp), fgets_read_line 255 l [] hl (by omega), fgets_all_nil]

/-- The buffers read for one line that ends with a newline: they are followed by the
buffers of the rest of the stream, they make up the line, each holds at most 255 bytes
and is a part of the line (with the newline, for the last one), and a line of 255 bytes
or more takes at least two buffers. -/
theorem fgets_all_line_aux (n : Nat) :
    ∀ l rest : List Char, l.length ≤ n → '\n' ∉ l →
      fgets_all 256 (l ++ '\n' :: rest) = fgets_all 256 (l ++ ['\n']) ++ fgets_all 256 rest ∧
        (∀ b ∈ fgets_all 256 (l ++ ['\n']),
          b.length ≤ 255 ∧ ∃ a, a <:+: l ∧ (b = a ∨ b = a ++ ['\n'])) ∧
        (255 ≤ l.length → 2 ≤ (fgets_all 256 (l ++ ['\n'])).length) := by
  induction n using Nat.strong_induction_on with
  | _ n ih =>
    intro l rest hn hl
    by_cases hshort : l.length ≤ 254
    · rw [fgets_all_one_line l hl hshort]
      refine ⟨?_, ?_, by omega⟩
      · rw [fgets_all_of_ne_nil _ (by simp), fgets_read_line 255 l rest hl (by omega)]
        rfl
      · intro b hb
        simp only [List.mem_singleton] at hb
        subst hb
        exact ⟨by simp; omega, l, List.infix_refl l, Or.inr rfl⟩
    · have hlong : 255 ≤ l.length := by omega
      have hdrop : '\n' ∉ l.drop 255 := fun h => hl (List.mem_of_mem_drop h)
      obtain ⟨h1, h3, -⟩ :=
        ih (l.length - 255) (by omega) (l.drop 255) rest (by simp) hdrop
      have hone : fgets_all 256 (l ++ ['\n']) =
          l.take 255 :: fgets_all 256 (l.drop 255 ++ ['\n']) := by
        rw [fgets_all_of_ne_nil _ (by simp), fgets_read_long 255 l _ hl hlong]
      rw [hone]
      refine ⟨?_, ?_, ?_⟩
      · rw [fgets_all_of_ne_nil _ (by simp), fgets_read_long 255 l _ hl hlong]
        simp only [h1, List.cons_append]
      · intro b hb
        rcases List.mem_cons.mp hb with hb | hb
        · subst hb
          exact ⟨by simp, l.take 255, (List.take_prefix _ _).isInfix, Or.inl rfl⟩
        · obtain ⟨hlen, a, ha, hba⟩ := h3 b hb
          exact ⟨hlen, a, ha.trans (List.drop_suffix _ _).isInfix, hba⟩
      · intro _
        have hne : fgets_all 256 (l.drop 255 ++ ['\n']) ≠ [] := by
          rw [fgets_all_of_ne_nil _ (by simp)]
          simp
        have := List.length_pos.mpr hne
        simp only [List.length_cons]
        omega

theorem fgets_all_line (l rest : List Char) (hl : '\n' ∉ l) :
    fgets_all 256 (l ++ '\n' :: rest) = fgets_all 256 (l ++ ['\n']) ++ fgets_all 256 rest :=
  (fgets_all_line_aux l.length l rest (Nat.le_refl _) hl).1

theorem fgets_all_line_bufs (l : List Char) (hl : '\n' ∉ l) :
    ∀ b ∈ fgets_all 256 (l ++ ['\n']),
      b.length ≤ 255 ∧ ∃ a, a <:+: l ∧ (b = a ∨ b = a ++ ['\n']) :=
  (fgets_all_line_aux l.length l [] (Nat.le_refl _) hl).2.1

theorem fgets_all_long_line (l : List Char) (hl : '\n' ∉ l) (hlen : 255 ≤ l.length) :
    2 ≤ (fgets_all 256 (l ++ ['\n'])).length :=
  (fgets_all_line_aux l.length l [] (Nat.le_refl _) hl).2.2 hlen

theorem fgets_all_short_line (l rest : List Char) (hl : '\n' ∉ l) (hlen : l.length ≤ 254) :
    fgets_all 256 (l ++ '\n' :: rest) = (l ++ ['\n']) :: fgets_all 256 rest := by
  rw [fgets_all_line l rest hl, fgets_all_one_line l hl hlen]
  rfl

theorem fgets_all_unlines (ls : List (List Char)) (rest : List Char)
    (hls : ∀ l ∈ ls, '\n' ∉ l) :
    fgets_all 256 (unlines ls ++ rest) = fgets_all 256 (unlines ls) ++ fgets_all 256 rest := by
  induction ls with
  | nil => simp [unlines, fgets_all_nil]
  | cons l ls ih =>
    have hl := hls l (by simp)
    have ih := ih (fun l' h' => hls l' (List.mem_cons_of_mem _ h'))
    simp only [unlines, List.append_assoc, List.cons_append]
    rw [fgets_all_line l _ hl, fgets_all_line l (unlines ls) hl, ih, List.append_assoc]

/-- The buffers read for a last line that has no newline are parts of it of at most 255
bytes. -/
theorem fgets_all_last_aux (n : Nat) :
    ∀ l : List Char, l.length ≤ n → '\n' ∉ l →
      ∀ b ∈ fgets_all 256 l, b.length ≤ 255 ∧ b <:+: l := by
  induction n using Nat.strong_induction_on with
  | _ n ih =>
    intro l hn hl b hb
    by_cases hnil : l = []
    · subst hnil
      simp [fgets_all_nil] at hb
    · rw [fgets_all_of_ne_nil l hnil] at hb
      by_cases hshort : l.length ≤ 255
      · rw [fgets_read_eof 255 l hl hshort] at hb
        simp only [fgets_all_nil, List.mem_singleton] at hb
        subst hb
        exact ⟨hshort, List.infix_refl _⟩
      · have h := fgets_read_long 255 l [] hl (by omega)
        simp only [List.append_nil] at h
        rw [h] at hb
        rcases List.mem_cons.mp hb with hb | hb
        · subst hb
          exact ⟨by simp, (List.take_prefix _ _).isInfix⟩
        · have hdrop : '\n' ∉ l.drop 255 := fun h => hl (List.mem_of_mem_drop h)
          obtain ⟨h1, h2⟩ := ih (l.length - 255) (by omega) (l.drop 255) (by simp) hdrop b hb
          exact ⟨h1, h2.trans (List.drop_suffix _ _).isInfix⟩

theorem fgets_all_last (l : List Char) (hl : '\n' ∉ l) :
    ∀ b ∈ fgets_all 256 l, b.length ≤ 255 ∧ b <:+: l :=
  fgets_all_last_aux l.length l (Nat.le_refl _) hl

theorem fgets_all_short_last (l : List Char) (hl : '\n' ∉ l) (hne : l ≠ [])
    (hlen : l.length ≤ 255) : fgets_all 256 l = [l] := by
  rw [fgets_all_of_ne_nil l hne, fgets_read_eof 255 l hl hlen, fgets_all_nil]

/-! ## Lines of a text -/

theorem lines_induction_aux {P : List Char → Prop} (hlast : ∀ l, '\n' ∉ l → P l)
    (hline : ∀ l rest, '\n' ∉ l → P rest → P (l ++ '\n' :: rest)) :
    ∀ s acc : List Char, '\n' ∉ acc → P (acc ++ s) := by
  intro s
  induction s with
  | nil =>
    intro acc hacc
    simpa using hlast acc hacc
  | cons c s ih =>
    intro acc hacc
    by_cases hc : c = '\n'
    · subst hc
      exact hline acc s hacc (by simpa using ih [] (by simp))
    · have := ih (acc ++ [c]) (by
        simp only [List.mem_append, List.mem_singleton, not_or]
        exact ⟨hacc, fun h => hc h.symm⟩)
      simpa using this

/-- Every text is a last line without newline, or a first line, a newline and a text. -/
theorem lines_induction {P : List Char → Prop} (hlast : ∀ l, '\n' ∉ l → P l)
    (hline : ∀ l rest, '\n' ∉ l → P rest → P (l ++ '\n' :: rest)) (s : List Char) : P s := by
  simpa using lines_induction_aux hlast hline s [] (by simp)

theorem text_lines_last (l : List Char) (hl : '\n' ∉ l) :
    text_lines l = if l = [] then [] else [l] := by
  induction l with
  | nil => simp [text_lines]
  | cons c l ih =>
    simp only [List.mem_cons, not_or] at hl
    have hc : c ≠ '\n' := fun h => hl.1 h.symm
    rw [text_lines, if_neg hc, ih hl.2]
    by_cases h : l = []
    · simp [h]
    · simp [h]

theorem text_lines_line (l rest : List Char) (hl : '\n' ∉ l) :
    text_lines (l ++ '\n' :: rest) = l :: text_lines rest := by
  induction l with
  | nil => simp [text_lines]
  | cons c l ih =>
    simp only [List.mem_cons, not_or] at hl
    have hc : c ≠ '\n' := fun h => hl.1 h.symm
    rw [List.cons_append, text_lines, if_neg hc, ih hl.2]

/-- Every buffer of the reading loop is a part of one line of the text, with the newline
of the line when the buffer holds it. -/
theorem fgets_all_in_line (s : List Char) :
    ∀ b ∈ fgets_all 256 s,
      b.length ≤ 255 ∧ ∃ l ∈ text_lines s, ∃ a, a <:+: l ∧ (b = a ∨ b = a ++ ['\n']) := by
  induction s using lines_induction with
  | hlast l hl =>
    intro b hb
    have hne : l ≠ [] := by
      rintro rfl
      simp [fgets_all_nil] at hb
    rw [text_lines_last l hl, if_neg hne]
    exact ⟨(fgets_all_last l hl b hb).1, l, by simp, b, (fgets_all_last l hl b hb).2, Or.inl rfl⟩
  | hline l rest hl ih =>
    intro b hb
    rw [fgets_all_line l rest hl] at hb
    rw [text_lines_line l rest hl]
    rcases List.mem_append.mp hb with hb | hb
    · obtain ⟨hlen, a, ha, hba⟩ := fgets_all_line_bufs l hl b hb
      exact ⟨hlen, l, by simp, a, ha, hba⟩
    · obtain ⟨hlen, l', hl', a, ha, hba⟩ := ih b hb
      exact ⟨hlen, l', List.mem_cons_of_mem _ hl', a, ha, hba⟩

/-- When every line of the text has at most 254 bytes, every buffer of the reading loop is
a whole line, with its newline when it has one. -/
theorem fgets_all_whole_line (s : List Char) (hs : ∀ l ∈ text_lines s, l.length ≤ 254) :
    ∀ b ∈ fgets_all 256 s, ∃ l ∈ text_lines s, b = l ∨ b = l ++ ['\n'] := by
  induction s using lines_induction with
  | hlast l hl =>
    intro b hb
    have hne : l ≠ [] := by
      rintro rfl
      simp [fgets_all_nil] at hb
    rw [text_lines_last l hl, if_neg hne] at hs ⊢
    have hlen := hs l (by simp)
    rw [fgets_all_short_last l hl hne (by omega)] at hb
    exact ⟨l, by simp, Or.inl (by simpa using hb)⟩
  | hline l rest hl ih =>
    intro b hb
    rw [text_lines_line l rest hl] at hs ⊢
    rw [fgets_all_short_line l rest hl (hs l (by simp))] at hb
    rcases List.mem_cons.mp hb with hb | hb
    · exact ⟨l, by simp, Or.inr hb⟩
    · obtain ⟨l', hl', h⟩ := ih (fun l' h' => hs l' (List.mem_cons_of_mem _ h')) b hb
      exact ⟨l', List.mem_cons_of_mem _ hl', h⟩

/-! ## C strings -/

theorem cstr_initial (buf : List Char) : cstr buf <+: buf :=
  List.takeWhile_prefix _

theorem cstr_of_not_mem (s : List Char) (hs : NUL ∉ s) : cstr s = s := by
  induction s with
  | nil => rfl
  | cons c s ih =>
    simp only [List.mem_cons, not_or] at hs
    have hc : c ≠ NUL := fun h => hs.1 h.symm
    simp only [cstr, List.takeWhile_cons, bne_iff_ne, ne_eq, hc, not_false_eq_true,
      decide_True, if_true, List.cons.injEq, true_and]
    exact ih hs.2

theorem cstr_append (a b : List Char) (ha : NUL ∉ a) : cstr (a ++ b) = a ++ cstr b := by
  induction a with
  | nil => rfl
  | cons c a ih =>
    simp only [List.mem_cons, not_or] at ha
    have hc : c ≠ NUL := fun h => ha.1 h.symm
    simp only [cstr, List.cons_append, List.takeWhile_cons, bne_iff_ne, ne_eq, hc,
      not_false_eq_true, decide_True, if_true, List.cons.injEq, true_and]
    exact ih ha.2

/-- Ending a string at its first newline keeps the bytes before the first newline. -/
theorem terminate_at_newline (s : List Char) :
    terminate_at s (strcspn s "\n".toList) = s.takeWhile (fun c => c != '\n') := by
  induction s with
  | nil => rfl
  | cons c s ih =>
    simp only [terminate_at, strcspn] at ih ⊢
    by_cases hc : c = '\n'
    · subst hc
      rfl
    · have h1 : (!"\n".toList.contains c) = true := by
        simp [String.toList, hc]
      have h2 : (c != '\n') = true := by simpa using hc
      simp only [List.takeWhile_cons, h1, h2, if_true, List.length_cons, List.take_succ_cons,
        List.cons.injEq, true_and]
      exact ih

theorem takeWhile_newline_line (l rest : List Char) (hl : '\n' ∉ l) :
    (l ++ '\n' :: rest).takeWhile (fun c => c != '\n') = l := by
  induction l with
  | nil => simp
  | cons c l ih =>
    simp only [List.mem_cons, not_or] at hl
    have hc : c ≠ '\n' := fun h => hl.1 h.symm
    simp [List.takeWhile_cons, hc, ih hl.2]

theorem takeWhile_newline_self (l : List Char) (hl : '\n' ∉ l) :
    l.takeWhile (fun c => c != '\n') = l := by
  induction l with
  | nil => simp
  | cons c l ih =>
    simp only [List.mem_cons, not_or] at hl
    have hc : c ≠ '\n' := fun h => hl.1 h.symm
    simp [List.takeWhile_cons, hc, ih hl.2]

theorem not_mem_takeWhile_newline (s : List Char) :
    '\n' ∉ s.takeWhile (fun c => c != '\n') := by
  intro h
  have := List.mem_takeWhile_imp h
  simp at this

theorem strstr_eq_none_iff (s needle : List Char) :
    strstr s needle = none ↔ ¬ needle <:+: s := by
  induction s with
  | nil =>
    by_cases h : needle = []
    · simp [strstr, h]
    · simp [strstr, h]
  | cons c s ih =>
    by_cases hp : needle.isPrefixOf (c :: s) = true
    · have hp' : needle <+: c :: s := List.isPrefixOf_iff_prefix.mp hp
      simp only [strstr, hp, if_true]
      simpa using hp'.isInfix
    · simp only [strstr, hp, if_false, ih, Bool.false_eq_true]
      have hp' : ¬ needle <+: c :: s := fun h => hp (List.isPrefixOf_iff_prefix.mpr h)
      rw [List.infix_cons_iff]
      tauto

theorem strstr_some_occurs (s needle r : List Char) (h : strstr s needle = some r) :
    needle <:+: s := by
  by_contra hn
  rw [(strstr_eq_none_iff s needle).mpr hn] at h
  exact absurd h (by simp)

/-- The result of `strstr` is the first occurrence: when the needle does not occur at a
position before the end of `pre`, the occurrence found in `pre ++ needle ++ rest` is the
one after `pre`. -/
theorem strstr_first (pre needle rest : List Char) (hne : needle ≠ [])
    (hfirst : ¬ needle <:+: pre ++ needle.dropLast) :
    strstr (pre ++ needle ++ rest) needle = some (needle ++ rest) := by
  induction pre with
  | nil =>
    cases needle with
    | nil => exact absurd rfl hne
    | cons x needle =>
      have : (x :: needle).isPrefixOf (x :: needle ++ rest) = true :=
        List.isPrefixOf_iff_prefix.mpr (List.prefix_append _ _)
      simp only [List.nil_append, List.cons_append] at this ⊢
      simp only [strstr, this, if_true]
  | cons c pre ih =>
    have hnp : (needle.isPrefixOf (c :: pre ++ needle ++ rest)) = false := by
      rw [Bool.eq_false_iff]
      intro hp
      have hp' := List.isPrefixOf_iff_prefix.mp hp
      have h1 : c :: pre ++ needle.dropLast <+: c :: pre ++ needle ++ rest :=
        ((List.prefix_append_right_inj (c :: pre)).mpr (List.dropLast_prefix needle)).trans
          (List.prefix_append _ _)
      have hlen : needle.length ≤ (c :: pre ++ needle.dropLast).length := by
        have := List.length_pos.mpr hne
        simp only [List.cons_append, List.length_cons, List.length_append, List.length_dropLast]
        omega
      have := List.prefix_of_prefix_length_le hp' h1 hlen
      exact hfirst this.isInfix
    have ih := ih (fun h => hfirst (by
      rw [List.cons_append, List.infix_cons_iff]
      exact Or.inr h))
    simp only [List.cons_append] at hnp ⊢
    simp only [strstr, hnp, Bool.false_eq_true, if_false]
    exact ih

theorem strchr_eq_none_iff (s : List Char) (ch : Char) : strchr s ch = none ↔ ch ∉ s := by
  induction s with
  | nil => simp [strchr]
  | cons c s ih =>
    by_cases hc : c = ch
    · simp [strchr, hc]
    · have hc' : ¬ ch = c := fun h => hc h.symm
      simp [strchr, hc, hc', ih]

theorem strchr_first (a rest : List Char) (ch : Char) (ha : ch ∉ a) :
    strchr (a ++ ch :: rest) ch = some (ch :: rest) := by
  induction a with
  | nil => simp [strchr]
  | cons c a ih =>
    simp only [List.mem_cons, not_or] at ha
    have hc : c ≠ ch := fun h => ha.1 h.symm
    simp [strchr, hc, ih ha.2]

/-- A needle without newline that occurs in a buffer occurs in the line the buffer is a
part of. -/
theorem infix_of_infix_buffer (needle a b : List Char) (hn : '\n' ∉ needle)
    (hb : b = a ∨ b = a ++ ['\n']) (h : needle <:+: b) : needle <:+: a := by
  rcases hb with rfl | rfl
  · exact h
  · obtain ⟨s, t, hst⟩ := h
    rcases List.eq_nil_or_concat t with rfl | ⟨t', x, rfl⟩
    · rw [List.append_nil] at hst
      have : '\n' ∈ s ++ needle := by rw [hst]; simp
      rcases List.eq_nil_or_concat needle with rfl | ⟨n', y, rfl⟩
      · exact List.nil_infix
      · have hy : y = '\n' := by
          have h' : (s ++ n') ++ [y] = a ++ ['\n'] := by
            simpa [List.append_assoc] using hst
          simpa using (List.append_inj' h' rfl).2
        exact absurd (by simp [hy]) hn
    · have : s ++ needle ++ t' = a := by
        have h' : (s ++ needle ++ t') ++ [x] = a ++ ['\n'] := by
          simpa [List.append_assoc] using hst
        exact (List.append_inj' h' rfl).1
      exact ⟨s, t', this⟩

/-! ## The worker: `run_update_script` -/

theorem status_text_eq (buf : List Char) :
    status_text buf = (cstr buf).takeWhile (fun c => c != '\n') :=
  terminate_at_newline _

theorem status_text_line (l : List Char) (hl : '\n' ∉ l) (hnul : NUL ∉ l) :
    status_text (l ++ ['\n']) = l := by
  rw [status_text_eq, cstr_append l _ hnul]
  have : cstr ['\n'] = ['\n'] := by decide
  rw [this, takeWhile_newline_line l [] hl]

theorem status_text_part (buf : List Char) : status_text buf <:+: buf := by
  rw [status_text_eq]
  exact ((List.takeWhile_prefix _).trans (cstr_initial buf)).isInfix

theorem status_text_length_le (buf : List Char) : (status_text buf).length ≤ buf.length :=
  (status_text_part buf).length_le

theorem status_text_no_newline (buf : List Char) : '\n' ∉ status_text buf := by
  rw [status_text_eq]
  exact not_mem_takeWhile_newline _

theorem status_text_filter (a b : List Char) (ha : '\n' ∉ a) (hnul : NUL ∉ a)
    (hb : b = a ∨ b = a ++ ['\n']) : status_text b = b.filter (fun c => c != '\n') := by
  have hfa : a.filter (fun c => c != '\n') = a := by
    rw [List.filter_eq_self]
    intro c hc
    have : c ≠ '\n' := fun h => ha (h ▸ hc)
    simpa using this
  rcases hb with rfl | rfl
  · rw [status_text_eq, cstr_of_not_mem b hnul, takeWhile_newline_self b ha, hfa]
  · rw [status_text_line a ha hnul, List.filter_append, hfa]
    simp

theorem fgets_all_unlines_short (ls : List (List Char))
    (hls : ∀ l ∈ ls, '\n' ∉ l ∧ l.length ≤ 254) :
    fgets_all 256 (unlines ls) = ls.map (fun l => l ++ ['\n']) := by
  induction ls with
  | nil => simp [unlines, fgets_all_nil]
  | cons l ls ih =>
    have hl := hls l (by simp)
    rw [unlines, fgets_all_short_line l _ hl.1 hl.2,
      ih (fun l' h' => hls l' (List.mem_cons_of_mem _ h'))]
    rfl

theorem status_text_line_cstr (l : List Char) (hl : '\n' ∉ l) :
    status_text (l ++ ['\n']) = cstr l := by
  rw [status_text_eq]
  induction l with
  | nil => decide
  | cons c l ih =>
    simp only [List.mem_cons, not_or] at hl
    have hc : c ≠ '\n' := fun h => hl.1 h.symm
    by_cases hnul : c = NUL
    · subst hnul
      rfl
    · have h1 : (c != NUL) = true := by simpa using hnul
      have h2 : (c != '\n') = true := by simpa using hc
      simp only [cstr, List.cons_append, List.takeWhile_cons, h1, h2, if_true, List.cons.injEq,
        true_and]
      exact ih hl.2

/-- C6, as amended: when the script starts and its output is made of the lines `l1 .. ln`,
each of at most 254 bytes before its newline, `run_update_script` passes exactly `n` values
to `g_idle_add`, in order, all for the label it was given and nothing after them (no
message at the end of the output); the `i`-th text is `li` without its newline, up to the
first NUL byte of `li` when it has one (an empty line gives an empty text). So for lines
without NUL byte the texts are the lines. -/
theorem run_update_script_lines (arg : GtkLabel) (ls : List (List Char))
    (hls : ∀ l ∈ ls, '\n' ∉ l ∧ l.length ≤ 254) :
    run_update_script arg (some (unlines ls)) =
        ls.map (fun l => { status_label := arg, text := cstr l }) ∧
      ((∀ l ∈ ls, NUL ∉ l) →
        run_update_script arg (some (unlines ls)) =
          ls.map (fun l => { status_label := arg, text := l })) := by
  have h : run_update_script arg (some (unlines ls)) =
      ls.map (fun l => { status_label := arg, text := cstr l }) := by
    simp only [run_update_script]
    rw [fgets_all_unlines_short ls hls, List.map_map]
    apply List.map_congr_left
    intro l h
    simp only [Function.comp_apply, UpdateStatusData.mk.injEq, true_and]
    exact status_text_line_cstr l (hls l h).1
  refine ⟨h, fun hnul => ?_⟩
  rw [h]
  apply List.map_congr_left
  intro l hl
  rw [cstr_of_not_mem l (hnul l hl)]

/-- Witness of C6: an output of three lines, the second one empty. -/
theorem run_update_script_lines_witness :
    (∀ l ∈ ["Reading package lists".toList, [], "Done".toList], '\n' ∉ l ∧ l.length ≤ 254) ∧
      (∀ l ∈ ["Reading package lists".toList, [], "Done".toList], NUL ∉ l) ∧
      run_update_script 7 (some (unlines ["Reading package lists".toList, [], "Done".toList])) =
        ["Reading package lists".toList, [], "Done".toList].map
          (fun l => { status_label := 7, text := l }) :=
  ⟨by decide, by decide, (run_update_script_lines 7 _ (by decide)).2 (by decide)⟩

/-- Counterexample of C6: the output line made of `a`, a NUL byte and `b`. The text queued
is `a`: the buffer is copied as a C string, which ends at the NUL byte. -/
theorem run_update_script_lines_counterexample :
    run_update_script 7 (some (unlines [['a', NUL, 'b']])) =
        [{ status_label := 7, text := ['a'] }] ∧
      run_update_script 7 (some (unlines [['a', NUL, 'b']])) ≠
        [['a', NUL, 'b']].map (fun l => { status_label := 7, text := l }) := by
  decide

/-- C8: when the script cannot be started (`popen` gives `NULL`), `run_update_script` passes
exactly one value to `g_idle_add`, with the text "Error: Could not run update script.", and
stops. It is the only path with a text that is not taken from the output of the script:
when the script starts, every text queued is a part of its output. -/
theorem run_update_script_error (arg : GtkLabel) :
    run_update_script arg none =
        [{ status_label := arg, text := "Error: Could not run update script.".toList }] ∧
      ∀ (out : List Char) (ud : UpdateStatusData),
        ud ∈ run_update_script arg (some out) → ud.status_label = arg ∧ ud.text <:+: out := by
  refine ⟨rfl, ?_⟩
  intro out ud hud
  simp only [run_update_script, List.mem_map] at hud
  obtain ⟨buf, hbuf, rfl⟩ := hud
  refine ⟨rfl, (status_text_part buf).trans ?_⟩
  have := List.infix_of_mem_flatten hbuf
  rwa [fgets_all_flatten] at this

/-- Witness of C8: the two texts queued for the output `ok` newline `done` are parts of it. -/
theorem run_update_script_error_witness :
    ({ status_label := 7, text := "done".toList } : UpdateStatusData) ∈
        run_update_script 7 (some "ok\ndone".toList) ∧
      (7 = 7 ∧ "done".toList <:+: "ok\ndone".toList) :=
  ⟨by decide,
    (run_update_script_error 7).2 "ok\ndone".toList { status_label := 7, text := "done".toList }
      (by decide)⟩

/-- C10, as amended: every text that `run_update_script` queues has at most 255 bytes and no
newline. An output line of more than 254 bytes and without NUL byte is not queued as one
text but as two or more consecutive ones, of at most 255 bytes each, which put together
are the line without its newline; so there can be more texts than lines. -/
theorem run_update_script_bound (arg : GtkLabel) :
    (∀ (fp : Option (List Char)) (ud : UpdateStatusData),
        ud ∈ run_update_script arg fp → ud.text.length ≤ 255 ∧ '\n' ∉ ud.text) ∧
      ∀ (before : List (List Char)) (line rest : List Char),
        (∀ l ∈ before, '\n' ∉ l) → '\n' ∉ line → NUL ∉ line → 254 < line.length →
        ∃ chunks : List (List Char),
          run_update_script arg (some (unlines before ++ line ++ '\n' :: rest)) =
            run_update_script arg (some (unlines before)) ++
              chunks.map (fun t => { status_label := arg, text := t }) ++
              run_update_script arg (some rest) ∧
          2 ≤ chunks.length ∧ (∀ t ∈ chunks, t.length ≤ 255) ∧ chunks.flatten = line := by
  constructor
  · intro fp ud hud
    cases fp with
    | none =>
      simp only [run_update_script, List.mem_singleton] at hud
      subst hud
      show "Error: Could not run update script.".toList.length ≤ 255 ∧
        '\n' ∉ "Error: Could not run update script.".toList
      exact ⟨by decide, by decide⟩
    | some out =>
      simp only [run_update_script, List.mem_map] at hud
      obtain ⟨buf, hbuf, rfl⟩ := hud
      exact ⟨(status_text_length_le buf).trans (fgets_all_in_line out buf hbuf).1,
        status_text_no_newline buf⟩
  · intro before line rest hbefore hline hnul hlen
    refine ⟨(fgets_all 256 (line ++ ['\n'])).map status_text, ?_, ?_, ?_, ?_⟩
    · simp only [run_update_script]
      rw [List.append_assoc, fgets_all_unlines before _ hbefore, fgets_all_line line rest hline]
      simp only [List.map_append, List.map_map, List.append_assoc]
      rfl
    · rw [List.length_map]
      exact fgets_all_long_line line hline (by omega)
    · intro t ht
      obtain ⟨buf, hbuf, rfl⟩ := List.mem_map.mp ht
      exact (status_text_length_le buf).trans (fgets_all_line_bufs line hline buf hbuf).1
    · have hmap : (fgets_all 256 (line ++ ['\n'])).map status_text =
          (fgets_all 256 (line ++ ['\n'])).map (fun b => b.filter (fun c => c != '\n')) := by
        apply List.map_congr_left
        intro buf hbuf
        obtain ⟨-, a, ha, hba⟩ := fgets_all_line_bufs line hline buf hbuf
        exact status_text_filter a buf (fun h => hline (ha.subset h)) (fun h => hnul (ha.subset h))
          hba
      rw [hmap, ← List.filter_flatten, fgets_all_flatten, List.filter_append]
      have : line.filter (fun c => c != '\n') = line := by
        rw [List.filter_eq_self]
        intro c hc
        have : c ≠ '\n' := fun h => hline (h ▸ hc)
        simpa using this
      rw [this]
      simp

set_option maxRecDepth 100000 in
/-- Witness of C10: a line of 255 bytes is queued as two texts, the line and an empty one;
the text of the next line is at most 255 bytes long and has no newline. -/
theorem run_update_script_bound_witness :
    (({ status_label := 7, text := "ok".toList } : UpdateStatusData) ∈
        run_update_script 7 (some (List.replicate 255 'x' ++ "\nok\n".toList)) ∧
      "ok".toList.length ≤ 255 ∧ '\n' ∉ "ok".toList) ∧
    (∀ l ∈ ([] : List (List Char)), '\n' ∉ l) ∧ '\n' ∉ List.replicate 255 'x' ∧
      NUL ∉ List.replicate 255 'x' ∧ 254 < (List.replicate 255 'x').length ∧
      ∃ chunks : List (List Char),
        run_update_script 7 (some (unlines [] ++ List.replicate 255 'x' ++ '\n' :: "ok\n".toList)) =
          run_update_script 7 (some (unlines [])) ++
            chunks.map (fun t => { status_label := 7, text := t }) ++
            run_update_script 7 (some "ok\n".toList) ∧
        2 ≤ chunks.length ∧ (∀ t ∈ chunks, t.length ≤ 255) ∧
        chunks.flatten = List.replicate 255 'x' :=
  have h1 : ({ status_label := 7, text := "ok".toList } : UpdateStatusData) ∈
      run_update_script 7 (some (List.replicate 255 'x' ++ "\nok\n".toList)) := by decide
  have h0 : ∀ l ∈ ([] : List (List Char)), '\n' ∉ l := fun _ h => absurd h (List.not_mem_nil _)
  have h2 : '\n' ∉ List.replicate 255 'x' :=
    fun h => absurd (List.eq_of_mem_replicate h) (by decide)
  have h3 : NUL ∉ List.replicate 255 'x' :=
    fun h => absurd (List.eq_of_mem_replicate h) (by decide)
  have h4 : 254 < (List.replicate 255 'x').length := by
    rw [List.length_replicate]
    decide
  ⟨⟨h1, (run_update_script_bound 7).1 _ _ h1⟩, h0, h2, h3, h4,
    (run_update_script_bound 7).2 [] _ "ok\n".toList h0 h2 h3 h4⟩

set_option maxRecDepth 100000 in
/-- Counterexample of C10: the output line made of a NUL byte and 254 bytes `x`. It is read
in two buffers, and each gives an empty text (the first buffer, as a C string, ends at its
first byte): the texts put together are not the line. -/
theorem run_update_script_bound_counterexample :
    254 < (NUL :: List.replicate 254 'x').length ∧
      run_update_script 7 (some (NUL :: List.replicate 254 'x' ++ ['\n'])) =
        [{ status_label := 7, text := [] }, { status_label := 7, text := [] }] ∧
      ((run_update_script 7 (some (NUL :: List.replicate 254 'x' ++ ['\n']))).map
        (fun ud => ud.text)).flatten ≠ NUL :: List.replicate 254 'x' := by
  decide

/-! ## The hand-off to the main thread -/

theorem Bridge.step_invariant (b : Bridge) (t : Turn) :
    (b.step t).gui ++ ((b.step t).idle ++ (b.step t).to_emit).map
        (fun ud => (ud.status_label, ud.text)) =
      b.gui ++ (b.idle ++ b.to_emit).map (fun ud => (ud.status_label, ud.text)) := by
  cases t with
  | worker =>
    cases h : b.to_emit with
    | nil => simp [Bridge.step, h]
    | cons ud more => simp [Bridge.step, h, g_idle_add]
  | main_loop =>
    cases h : b.idle with
    | nil => simp [Bridge.step, h]
    | cons ud more => simp [Bridge.step, h, update_status_cb]

theorem Bridge.run_invariant (schedule : List Turn) (b : Bridge) :
    (b.run schedule).gui ++ ((b.run schedule).idle ++ (b.run schedule).to_emit).map
        (fun ud => (ud.status_label, ud.text)) =
      b.gui ++ (b.idle ++ b.to_emit).map (fun ud => (ud.status_label, ud.text)) := by
  induction schedule generalizing b with
  | nil => rfl
  | cons t schedule ih =>
    have := ih (b.step t)
    simp only [Bridge.run, List.foldl_cons] at this ⊢
    rw [this, Bridge.step_invariant]

/-- C7: with the idle queue as a FIFO queue that the worker appends to (`g_idle_add`) and
the main loop takes from, one entry at a time (`update_status_cb`): for every sequence of
values `L1 .. Ln` that a worker emits and every interleaving of worker and main loop
steps, the texts set by the callbacks so far, followed by the texts in the queue and the
texts not yet emitted, are `L1 .. Ln` (nothing is dropped, repeated or reordered); so the
texts set so far are a prefix of `L1 .. Ln` at every point, whenever the queue is empty they
are the texts emitted so far, and they are `L1 .. Ln` once the worker has finished and the
queue is empty. -/
theorem bridge_fifo (emits : List UpdateStatusData) (schedule : List Turn) :
    ((Bridge.start emits).run schedule).gui ++
        (((Bridge.start emits).run schedule).idle ++
          ((Bridge.start emits).run schedule).to_emit).map
            (fun ud => (ud.status_label, ud.text)) =
        emits.map (fun ud => (ud.status_label, ud.text)) ∧
      ((Bridge.start emits).run schedule).gui <+:
        emits.map (fun ud => (ud.status_label, ud.text)) ∧
      (((Bridge.start emits).run schedule).idle = [] →
        ((Bridge.start emits).run schedule).gui ++
            ((Bridge.start emits).run schedule).to_emit.map
              (fun ud => (ud.status_label, ud.text)) =
          emits.map (fun ud => (ud.status_label, ud.text))) ∧
      (((Bridge.start emits).run schedule).to_emit = [] →
        ((Bridge.start emits).run schedule).idle = [] →
        ((Bridge.start emits).run schedule).gui =
          emits.map (fun ud => (ud.status_label, ud.text))) := by
  have h := Bridge.run_invariant schedule (Bridge.start emits)
  simp only [Bridge.start, List.nil_append] at h
  refine ⟨h, ⟨_, h⟩, ?_, ?_⟩
  · intro h2
    simp only [Bridge.start] at h2
    rw [h2] at h
    simpa using h
  · intro h1 h2
    simp only [Bridge.start] at h1 h2
    rw [h1, h2] at h
    simpa using h

/-- Witness of C7: three lines of script output, emitted and applied in an interleaved
order; at the end the labels received the three texts in the order of the output. -/
theorem bridge_fifo_witness :
    ((Bridge.start (run_update_script 7 (some "a\nb\nc\n".toList))).run
        [Turn.worker, Turn.worker, Turn.main_loop, Turn.main_loop, Turn.main_loop, Turn.worker,
          Turn.main_loop]).to_emit = [] ∧
      ((Bridge.start (run_update_script 7 (some "a\nb\nc\n".toList))).run
        [Turn.worker, Turn.worker, Turn.main_loop, Turn.main_loop, Turn.main_loop, Turn.worker,
          Turn.main_loop]).idle = [] ∧
      ((Bridge.start (run_update_script 7 (some "a\nb\nc\n".toList))).run
        [Turn.worker, Turn.worker, Turn.main_loop, Turn.main_loop, Turn.main_loop, Turn.worker,
          Turn.main_loop]).gui =
        (run_update_script 7 (some "a\nb\nc\n".toList)).map
          (fun ud => (ud.status_label, ud.text)) :=
  ⟨by decide, by decide, (bridge_fifo _ _).2.2.2 (by decide) (by decide)⟩

/-! ## The distribution name: `get_distro_info` -/

/-- A needle without newline that starts a buffer starts the line the buffer holds. -/
theorem prefix_of_prefix_buffer (needle a b : List Char) (hn : '\n' ∉ needle)
    (hb : b = a ∨ b = a ++ ['\n']) (h : needle <+: b) : needle <+: a := by
  rcases hb with rfl | rfl
  · exact h
  · obtain ⟨t, ht⟩ := h
    rcases List.eq_nil_or_concat t with rfl | ⟨t', x, rfl⟩
    · rw [List.append_nil] at ht
      exact absurd (by rw [ht]; simp) hn
    · have h' : (needle ++ t') ++ [x] = a ++ ['\n'] := by
        simpa [List.append_assoc] using ht
      exact ⟨t', (List.append_inj' h' rfl).1⟩

theorem strncmp_eq_iff_starts (s key : List Char) :
    strncmp_eq s key key.length = true ↔ key <+: s := by
  simp only [strncmp_eq, List.take_length, beq_iff_eq]
  rw [List.prefix_iff_eq_take]
  exact eq_comm

theorem strncmp_key_iff (s : List Char) :
    strncmp_eq s "PRETTY_NAME=".toList 12 = true ↔ "PRETTY_NAME=".toList <+: s :=
  strncmp_eq_iff_starts s "PRETTY_NAME=".toList

theorem get_distro_info_loop_skip (buf : List Char) (more : List (List Char))
    (h : ¬ "PRETTY_NAME=".toList <+: cstr buf) :
    get_distro_info_loop (buf :: more) = get_distro_info_loop more := by
  have h12 : strncmp_eq (cstr buf) "PRETTY_NAME=".toList 12 = false := by
    rw [Bool.eq_false_iff]
    exact fun hp => h ((strncmp_key_iff (cstr buf)).mp hp)
  simp only [get_distro_info_loop, h12, Bool.false_eq_true, if_false]

theorem get_distro_info_loop_none (bufs : List (List Char))
    (h : ∀ b ∈ bufs, ¬ "PRETTY_NAME=".toList <+: cstr b) : get_distro_info_loop bufs = none := by
  induction bufs with
  | nil => rfl
  | cons b bufs ih =>
    rw [get_distro_info_loop_skip b bufs (h b (by simp))]
    exact ih (fun b' h' => h b' (List.mem_cons_of_mem _ h'))

theorem get_distro_info_loop_append (bufs more : List (List Char))
    (h : ∀ b ∈ bufs, ¬ "PRETTY_NAME=".toList <+: cstr b) :
    get_distro_info_loop (bufs ++ more) = get_distro_info_loop more := by
  induction bufs with
  | nil => rfl
  | cons b bufs ih =>
    rw [List.cons_append, get_distro_info_loop_skip b _ (h b (by simp))]
    exact ih (fun b' h' => h b' (List.mem_cons_of_mem _ h'))

/-- The loop of `get_distro_info` passes the lines before the first one that begins with
`PRETTY_NAME=`, when they have at most 254 bytes each. -/
theorem get_distro_info_before (before : List (List Char)) (rest : List Char)
    (hbefore : ∀ l ∈ before, '\n' ∉ l ∧ l.length ≤ 254 ∧ ¬ "PRETTY_NAME=".toList <+: l) :
    get_distro_info_loop (fgets_all 256 (unlines before ++ rest)) =
      get_distro_info_loop (fgets_all 256 rest) := by
  rw [fgets_all_unlines before rest (fun l h => (hbefore l h).1),
    fgets_all_unlines_short before (fun l h => ⟨(hbefore l h).1, (hbefore l h).2.1⟩)]
  apply get_distro_info_loop_append
  intro b hb
  obtain ⟨l, hl, rfl⟩ := List.mem_map.mp hb
  intro hp
  exact (hbefore l hl).2.2
    (prefix_of_prefix_buffer _ l _ (by decide) (Or.inr rfl) (hp.trans (cstr_initial _)))

theorem get_distro_info_loop_quoted (v x : List Char) (more : List (List Char))
    (hq : '"' ∉ v) (hnul : NUL ∉ v) :
    get_distro_info_loop (("PRETTY_NAME=\"".toList ++ v ++ '"' :: x) :: more) =
      some ("Distro: ".toList ++ v) := by
  have hkey : "PRETTY_NAME=\"".toList = "PRETTY_NAME".toList ++ '=' :: ['"'] := by decide
  have hc : cstr ("PRETTY_NAME=\"".toList ++ v ++ '"' :: x) =
      "PRETTY_NAME".toList ++ '=' :: '"' :: (v ++ '"' :: cstr x) := by
    rw [List.append_assoc, cstr_append _ _ (by decide), cstr_append _ _ hnul, hkey]
    have : cstr ('"' :: x) = '"' :: cstr x := cstr_append ['"'] x (by decide)
    rw [this]
    simp
  have h12 : strncmp_eq ("PRETTY_NAME".toList ++ '=' :: '"' :: (v ++ '"' :: cstr x))
      "PRETTY_NAME=".toList 12 = true :=
    (strncmp_key_iff _).mpr ⟨'"' :: (v ++ '"' :: cstr x), by simp [String.toList]⟩
  have heq : strchr ("PRETTY_NAME".toList ++ '=' :: '"' :: (v ++ '"' :: cstr x)) '=' =
      some ('=' :: '"' :: (v ++ '"' :: cstr x)) := strchr_first _ _ _ (by decide)
  have hend : strchr (v ++ '"' :: cstr x) '"' = some ('"' :: cstr x) := strchr_first _ _ _ hq
  simp only [get_distro_info_loop, hc, h12, if_true, heq, List.drop_succ_cons, List.drop_zero,
    List.head?_cons, hend, terminate_at, List.length_append, List.length_cons]
  simp

theorem get_distro_info_loop_unquoted (v : List Char) (more : List (List Char))
    (hq : '"' ∉ v) (hnul : NUL ∉ v) :
    get_distro_info_loop (("PRETTY_NAME=".toList ++ v ++ ['\n']) :: more) =
      some ("Distro: ".toList ++ v ++ ['\n']) := by
  have hkey : "PRETTY_NAME=".toList = "PRETTY_NAME".toList ++ ['='] := by decide
  have hc : cstr ("PRETTY_NAME=".toList ++ v ++ ['\n']) =
      "PRETTY_NAME".toList ++ '=' :: (v ++ ['\n']) := by
    rw [List.append_assoc, cstr_append _ _ (by decide), cstr_append _ _ hnul, hkey]
    have : cstr ['\n'] = ['\n'] := by decide
    rw [this]
    simp
  have h12 : strncmp_eq ("PRETTY_NAME".toList ++ '=' :: (v ++ ['\n']))
      "PRETTY_NAME=".toList 12 = true :=
    (strncmp_key_iff _).mpr ⟨v ++ ['\n'], by simp [String.toList]⟩
  have heq : strchr ("PRETTY_NAME".toList ++ '=' :: (v ++ ['\n'])) '=' =
      some ('=' :: (v ++ ['\n'])) := strchr_first _ _ _ (by decide)
  have hhead : ¬ (v ++ ['\n']).head? = some '"' := by
    cases v with
    | nil => decide
    | cons c v =>
      simp only [List.mem_cons, not_or] at hq
      simpa using fun h => hq.1 h.symm
  have hend : strchr (v ++ ['\n']) '"' = none := by
    rw [strchr_eq_none_iff]
    simp only [List.mem_append, List.mem_singleton, not_or]
    exact ⟨hq, by decide⟩
  simp only [get_distro_info_loop, hc, h12, if_true, heq, List.drop_succ_cons, List.drop_zero,
    hhead, if_false, hend]
  simp

theorem fgets_all_starts (p rest : List Char) (hp : '\n' ∉ p) (hlen : p.length ≤ 255)
    (hne : p ≠ []) : ∃ x more, fgets_all 256 (p ++ rest) = (p ++ x) :: more := by
  obtain ⟨x, hx⟩ := fgets_read_starts 255 p rest hp hlen
  refine ⟨x, fgets_all 256 (fgets_read 255 (p ++ rest)).2, ?_⟩
  rw [fgets_all_of_ne_nil _ (by simp [hne]), hx]

/-- C2, as amended: when every line before the first line that begins with `PRETTY_NAME=`
has at most 254 bytes, and that line is `PRETTY_NAME="v"` with `v` a text without double
quote, newline and NUL byte, the line up to its closing quote shorter than 256 bytes, the
result is "Distro: " followed by `v`. -/
theorem get_distro_info_quoted (before : List (List Char)) (v post : List Char)
    (hbefore : ∀ l ∈ before, '\n' ∉ l ∧ l.length ≤ 254 ∧ ¬ "PRETTY_NAME=".toList <+: l)
    (hq : '"' ∉ v) (hnl : '\n' ∉ v) (hnul : NUL ∉ v)
    (hlen : ("PRETTY_NAME=\"".toList ++ v ++ ['"']).length < 256) :
    get_distro_info (some (unlines before ++ ("PRETTY_NAME=\"".toList ++ v ++ '"' :: post))) =
      "Distro: ".toList ++ v := by
  have hp : '\n' ∉ "PRETTY_NAME=\"".toList ++ v ++ ['"'] := by
    simp only [List.mem_append, not_or]
    exact ⟨⟨by decide, hnl⟩, by decide⟩
  obtain ⟨x, more, hx⟩ := fgets_all_starts ("PRETTY_NAME=\"".toList ++ v ++ ['"']) post hp
    (by omega) (by simp)
  have hform : "PRETTY_NAME=\"".toList ++ v ++ '"' :: post =
      ("PRETTY_NAME=\"".toList ++ v ++ ['"']) ++ post := by simp
  have hform' : ("PRETTY_NAME=\"".toList ++ v ++ ['"']) ++ x =
      "PRETTY_NAME=\"".toList ++ v ++ '"' :: x := by simp
  simp only [get_distro_info]
  rw [get_distro_info_before before _ hbefore, hform, hx, hform',
    get_distro_info_loop_quoted v x more hq hnul]

/-- Witness of C2: the example of the specification, after another line. -/
theorem get_distro_info_quoted_witness :
    (∀ l ∈ ["NAME=\"Ubuntu\"".toList],
        '\n' ∉ l ∧ l.length ≤ 254 ∧ ¬ "PRETTY_NAME=".toList <+: l) ∧
      '"' ∉ "Ubuntu 22.04.1 LTS".toList ∧ '\n' ∉ "Ubuntu 22.04.1 LTS".toList ∧
      NUL ∉ "Ubuntu 22.04.1 LTS".toList ∧
      ("PRETTY_NAME=\"".toList ++ "Ubuntu 22.04.1 LTS".toList ++ ['"']).length < 256 ∧
      get_distro_info (some (unlines ["NAME=\"Ubuntu\"".toList] ++
          ("PRETTY_NAME=\"".toList ++ "Ubuntu 22.04.1 LTS".toList ++ '"' :: "\nID=ubuntu\n".toList))) =
        "Distro: ".toList ++ "Ubuntu 22.04.1 LTS".toList :=
  ⟨by decide, by decide, by decide, by decide, by decide,
    get_distro_info_quoted _ _ _ (by decide) (by decide) (by decide) (by decide) (by decide)⟩

set_option maxRecDepth 100000 in
/-- Counterexample of C2: a file whose first line has 255 bytes `x` and then
`PRETTY_NAME="evil"`, and whose second line is `PRETTY_NAME="good"`. The first line that
begins with `PRETTY_NAME=` is the second one, but the second call of `fgets` gives the
rest of the first line, and the result is "Distro: evil". -/
theorem get_distro_info_quoted_counterexample :
    (text_lines (List.replicate 255 'x' ++
        "PRETTY_NAME=\"evil\"\nPRETTY_NAME=\"good\"\n".toList)).find?
        (fun l => "PRETTY_NAME=".toList.isPrefixOf l) = some "PRETTY_NAME=\"good\"".toList ∧
      get_distro_info (some (List.replicate 255 'x' ++
        "PRETTY_NAME=\"evil\"\nPRETTY_NAME=\"good\"\n".toList)) = "Distro: evil".toList ∧
      get_distro_info (some (List.replicate 255 'x' ++
        "PRETTY_NAME=\"evil\"\nPRETTY_NAME=\"good\"\n".toList)) ≠ "Distro: good".toList := by
  decide

/-- C9, as amended: when every line before the first line that begins with `PRETTY_NAME=`
has at most 254 bytes, and that line is `PRETTY_NAME=v` and a newline, with `v` a text
without double quote and NUL byte, the line with its newline shorter than 256 bytes, the
result is "Distro: " followed by `v` and the newline: the newline is kept. -/
theorem get_distro_info_unquoted (before : List (List Char)) (v post : List Char)
    (hbefore : ∀ l ∈ before, '\n' ∉ l ∧ l.length ≤ 254 ∧ ¬ "PRETTY_NAME=".toList <+: l)
    (hq : '"' ∉ v) (hnl : '\n' ∉ v) (hnul : NUL ∉ v)
    (hlen : ("PRETTY_NAME=".toList ++ v ++ ['\n']).length < 256) :
    get_distro_info (some (unlines before ++ ("PRETTY_NAME=".toList ++ v ++ '\n' :: post))) =
      "Distro: ".toList ++ v ++ ['\n'] := by
  have hp : '\n' ∉ "PRETTY_NAME=".toList ++ v := by
    simp only [List.mem_append, not_or]
    exact ⟨by decide, hnl⟩
  have hl : ("PRETTY_NAME=".toList ++ v).length ≤ 254 := by
    simp only [List.length_append, List.length_singleton] at hlen ⊢
    omega
  simp only [get_distro_info]
  rw [get_distro_info_before before _ hbefore, fgets_all_short_line _ post hp hl,
    get_distro_info_loop_unquoted v _ hq hnul]

/-- Witness of C9: an unquoted name after another line. -/
theorem get_distro_info_unquoted_witness :
    (∀ l ∈ ["NAME=Arch".toList],
        '\n' ∉ l ∧ l.length ≤ 254 ∧ ¬ "PRETTY_NAME=".toList <+: l) ∧
      '"' ∉ "Arch Linux".toList ∧ '\n' ∉ "Arch Linux".toList ∧ NUL ∉ "Arch Linux".toList ∧
      ("PRETTY_NAME=".toList ++ "Arch Linux".toList ++ ['\n']).length < 256 ∧
      get_distro_info (some (unlines ["NAME=Arch".toList] ++
          ("PRETTY_NAME=".toList ++ "Arch Linux".toList ++ '\n' :: "ID=arch\n".toList))) =
        "Distro: ".toList ++ "Arch Linux".toList ++ ['\n'] :=
  ⟨by decide, by decide, by decide, by decide, by decide,
    get_distro_info_unquoted _ _ _ (by decide) (by decide) (by decide) (by decide) (by decide)⟩

set_option maxRecDepth 100000 in
/-- Counterexample of C9: the line `PRETTY_NAME=` followed by 243 bytes `x` and a newline.
The line has 255 bytes before its newline, `fgets` stores them without the newline, and the
result is "Distro: " followed by the 243 bytes, without the newline. -/
theorem get_distro_info_unquoted_counterexample :
    '"' ∉ List.replicate 243 'x' ∧
      get_distro_info (some ("PRETTY_NAME=".toList ++ List.replicate 243 'x' ++ ['\n'])) =
        "Distro: ".toList ++ List.replicate 243 'x' ∧
      get_distro_info (some ("PRETTY_NAME=".toList ++ List.replicate 243 'x' ++ ['\n'])) ≠
        "Distro: ".toList ++ List.replicate 243 'x' ++ ['\n'] := by
  decide

/-! ## The processor name: `get_cpu_info` -/

theorem text_lines_unlines (ls : List (List Char)) (hls : ∀ l ∈ ls, '\n' ∉ l) :
    text_lines (unlines ls) = ls := by
  induction ls with
  | nil => rfl
  | cons l ls ih =>
    rw [unlines, text_lines_line l _ (hls l (by simp)),
      ih (fun l' h' => hls l' (List.mem_cons_of_mem _ h'))]

theorem mem_of_mem_buffer (ch : Char) (a b : List Char) (hch : ch ≠ '\n')
    (hb : b = a ∨ b = a ++ ['\n']) (h : ch ∈ b) : ch ∈ a := by
  rcases hb with rfl | rfl
  · exact h
  · rcases List.mem_append.mp h with h | h
    · exact h
    · exact absurd (List.mem_singleton.mp h) hch

theorem get_cpu_info_loop_skip (buf : List Char) (more : List (List Char))
    (h : ¬ ("model name".toList <:+: cstr buf ∧ ':' ∈ cstr buf)) :
    get_cpu_info_loop (buf :: more) = get_cpu_info_loop more := by
  cases hs : strstr (cstr buf) "model name".toList with
  | none => simp only [get_cpu_info_loop, hs]
  | some r =>
    have hc : strchr (cstr buf) ':' = none :=
      (strchr_eq_none_iff _ _).mpr (fun hc => h ⟨strstr_some_occurs _ _ _ hs, hc⟩)
    simp only [get_cpu_info_loop, hs, hc]

theorem get_cpu_info_loop_append (bufs more : List (List Char))
    (h : ∀ b ∈ bufs, ¬ ("model name".toList <:+: cstr b ∧ ':' ∈ cstr b)) :
    get_cpu_info_loop (bufs ++ more) = get_cpu_info_loop more := by
  induction bufs with
  | nil => rfl
  | cons b bufs ih =>
    rw [List.cons_append, get_cpu_info_loop_skip b _ (h b (by simp))]
    exact ih (fun b' h' => h b' (List.mem_cons_of_mem _ h'))

/-- When no line of a text has both "model name" and a colon, no buffer read from it
has. -/
theorem get_cpu_info_no_match (s : List Char)
    (hs : ∀ l ∈ text_lines s, ¬ ("model name".toList <:+: l ∧ ':' ∈ l)) :
    ∀ b ∈ fgets_all 256 s, ¬ ("model name".toList <:+: cstr b ∧ ':' ∈ cstr b) := by
  intro b hb hm
  obtain ⟨-, l, hl, a, ha, hba⟩ := fgets_all_in_line s b hb
  refine hs l hl ⟨?_, ?_⟩
  · exact (infix_of_infix_buffer _ a b (by decide) hba
      (hm.1.trans (cstr_initial b).isInfix)).trans ha
  · exact ha.subset (mem_of_mem_buffer ':' a b (by decide) hba ((cstr_initial b).subset hm.2))

theorem get_cpu_info_loop_found (a t : List Char) (more : List (List Char))
    (hcolon : ':' ∉ a) (hnul : NUL ∉ a ++ ':' :: ' ' :: t) (hnl : '\n' ∉ t)
    (hmarker : "model name".toList <:+: a ++ ':' :: ' ' :: t) :
    get_cpu_info_loop ((a ++ ':' :: ' ' :: t ++ ['\n']) :: more) =
      some (some ("CPU: ".toList ++ t)) := by
  have hc : cstr (a ++ ':' :: ' ' :: t ++ ['\n']) = a ++ ':' :: ' ' :: (t ++ ['\n']) := by
    rw [cstr_append _ _ hnul]
    have : cstr ['\n'] = ['\n'] := by decide
    rw [this]
    simp
  have hinf : "model name".toList <:+: a ++ ':' :: ' ' :: (t ++ ['\n']) := by
    have : a ++ ':' :: ' ' :: (t ++ ['\n']) = (a ++ ':' :: ' ' :: t) ++ ['\n'] := by simp
    rw [this]
    exact hmarker.trans (List.prefix_append _ _).isInfix
  obtain ⟨r, hr⟩ := Option.ne_none_iff_exists'.mp
    (fun h => (strstr_eq_none_iff _ _).mp h hinf)
  have hch : strchr (a ++ ':' :: ' ' :: (t ++ ['\n'])) ':' = some (':' :: ' ' :: (t ++ ['\n'])) :=
    strchr_first _ _ _ hcolon
  have hcut : terminate_at ("CPU: ".toList ++ (t ++ ['\n']))
      (strcspn ("CPU: ".toList ++ (t ++ ['\n'])) "\n".toList) = "CPU: ".toList ++ t := by
    rw [terminate_at_newline, ← List.append_assoc]
    apply takeWhile_newline_line
    simp only [List.mem_append, not_or]
    exact ⟨by decide, hnl⟩
  simp only [get_cpu_info_loop, hc, hr, hch, List.length_cons, List.drop_succ_cons,
    List.drop_zero, hcut]
  simp

/-- C3, as amended: when the first line of `/proc/cpuinfo` that has both "model name" and
a colon has at most 254 bytes before its newline (and no NUL byte) and its first colon is
followed by a space, the result is "CPU: " followed by the text of that line after the
colon and the space, without the newline. -/
theorem get_cpu_info_model (before : List (List Char)) (a t post : List Char)
    (hbefore : ∀ l ∈ before, '\n' ∉ l ∧ ¬ ("model name".toList <:+: l ∧ ':' ∈ l))
    (hcolon : ':' ∉ a) (hnl : '\n' ∉ a ++ ':' :: ' ' :: t)
    (hnul : NUL ∉ a ++ ':' :: ' ' :: t)
    (hmarker : "model name".toList <:+: a ++ ':' :: ' ' :: t)
    (hlen : (a ++ ':' :: ' ' :: t).length ≤ 254) :
    get_cpu_info (some (unlines before ++ (a ++ ':' :: ' ' :: t ++ '\n' :: post))) =
      some ("CPU: ".toList ++ t) := by
  have hb : ∀ b ∈ fgets_all 256 (unlines before),
      ¬ ("model name".toList <:+: cstr b ∧ ':' ∈ cstr b) := by
    apply get_cpu_info_no_match
    rw [text_lines_unlines before (fun l h => (hbefore l h).1)]
    exact fun l h => (hbefore l h).2
  have hnlt : '\n' ∉ t := fun h => hnl (by simp [h])
  simp only [get_cpu_info]
  rw [fgets_all_unlines before _ (fun l h => (hbefore l h).1), get_cpu_info_loop_append _ _ hb,
    fgets_all_short_line _ post hnl hlen, get_cpu_info_loop_found a t _ hcolon hnul hnlt hmarker]

/-- Witness of C3: two lines of a `/proc/cpuinfo`. -/
theorem get_cpu_info_model_witness :
    (∀ l ∈ ["processor\t: 0".toList],
        '\n' ∉ l ∧ ¬ ("model name".toList <:+: l ∧ ':' ∈ l)) ∧
      ':' ∉ "model name\t".toList ∧
      '\n' ∉ "model name\t".toList ++ ':' :: ' ' :: "AMD Ryzen 7 (TM)".toList ∧
      NUL ∉ "model name\t".toList ++ ':' :: ' ' :: "AMD Ryzen 7 (TM)".toList ∧
      "model name".toList <:+: "model name\t".toList ++ ':' :: ' ' :: "AMD Ryzen 7 (TM)".toList ∧
      ("model name\t".toList ++ ':' :: ' ' :: "AMD Ryzen 7 (TM)".toList).length ≤ 254 ∧
      get_cpu_info (some (unlines ["processor\t: 0".toList] ++
          ("model name\t".toList ++ ':' :: ' ' :: "AMD Ryzen 7 (TM)".toList ++
            '\n' :: "flags\t: fpu\n".toList))) =
        some ("CPU: ".toList ++ "AMD Ryzen 7 (TM)".toList) :=
  ⟨by decide, by decide, by decide, by decide, by decide, by decide,
    get_cpu_info_model _ _ _ _ (by decide) (by decide) (by decide) (by decide) (by decide)
      (by decide)⟩

set_option maxRecDepth 100000 in
/-- Counterexample of C3: a line "model name: " followed by 300 bytes `x` and a newline.
The text after the colon and the space is the 300 bytes, but `fgets` stores the first 255
bytes of the line only, and the result is "CPU: " followed by 243 bytes `x`. -/
theorem get_cpu_info_model_counterexample :
    text_lines ("model name: ".toList ++ List.replicate 300 'x' ++ ['\n']) =
        ["model name: ".toList ++ List.replicate 300 'x'] ∧
      get_cpu_info (some ("model name: ".toList ++ List.replicate 300 'x' ++ ['\n'])) =
        some ("CPU: ".toList ++ List.replicate 243 'x') ∧
      get_cpu_info (some ("model name: ".toList ++ List.replicate 300 'x' ++ ['\n'])) ≠
        some ("CPU: ".toList ++ List.replicate 300 'x') := by
  decide

/-! ## The memory size: `get_ram_info` -/

theorem digitChar_digit (k : Nat) (hk : k < 10) :
    isdigit (Nat.digitChar k) = true ∧ (Nat.digitChar k).toNat - '0'.toNat = k := by
  interval_cases k <;> exact ⟨by decide, by decide⟩

theorem isdigit_ne (c x : Char) (hc : isdigit c = true) (hx : isdigit x = false) : c ≠ x := by
  rintro rfl
  rw [hc] at hx
  exact absurd hx (by simp)

theorem digits_value_append (acc : Nat) (xs ys : List Char) :
    digits_value acc (xs ++ ys) = digits_value (digits_value acc xs) ys := by
  induction xs generalizing acc with
  | nil => rfl
  | cons c xs ih => exact ih _

theorem toDigitsCore_append (fuel : Nat) :
    ∀ (n : Nat) (ds : List Char),
      Nat.toDigitsCore 10 fuel n ds = Nat.toDigitsCore 10 fuel n [] ++ ds := by
  induction fuel with
  | zero => intro n ds; rfl
  | succ fuel ih =>
    intro n ds
    simp only [Nat.toDigitsCore]
    by_cases h : n / 10 = 0
    · simp [h]
    · simp only [h, if_false]
      rw [ih (n / 10) (Nat.digitChar (n % 10) :: ds), ih (n / 10) [Nat.digitChar (n % 10)]]
      simp

theorem toDigitsCore_digits (fuel : Nat) :
    ∀ n : Nat, ∀ c ∈ Nat.toDigitsCore 10 fuel n [], isdigit c = true := by
  induction fuel with
  | zero => intro n c hc; simp [Nat.toDigitsCore] at hc
  | succ fuel ih =>
    intro n c hc
    simp only [Nat.toDigitsCore] at hc
    have hd := (digitChar_digit (n % 10) (Nat.mod_lt _ (by decide))).1
    by_cases h : n / 10 = 0
    · simp only [h, if_true, List.mem_singleton] at hc
      rw [hc]
      exact hd
    · simp only [h, if_false] at hc
      rw [toDigitsCore_append] at hc
      rcases List.mem_append.mp hc with hc | hc
      · exact ih _ c hc
      · rw [List.mem_singleton.mp hc]
        exact hd

theorem digits_value_digitChar (acc k : Nat) (hk : k < 10) (s : List Char) :
    digits_value acc (Nat.digitChar k :: s) = digits_value (10 * acc + k) s := by
  show digits_value (10 * acc + ((Nat.digitChar k).toNat - '0'.toNat)) s = _
  rw [(digitChar_digit k hk).2]

theorem toDigitsCore_value (fuel : Nat) :
    ∀ n : Nat, n < fuel → digits_value 0 (Nat.toDigitsCore 10 fuel n []) = n := by
  induction fuel with
  | zero => intro n hn; omega
  | succ fuel ih =>
    intro n hn
    have hk : n % 10 < 10 := Nat.mod_lt _ (by decide)
    by_cases h : n / 10 = 0
    · have : Nat.toDigitsCore 10 (fuel + 1) n [] = [Nat.digitChar (n % 10)] := by
        simp only [Nat.toDigitsCore, h, if_true]
      rw [this, digits_value_digitChar 0 _ hk]
      show 10 * 0 + n % 10 = n
      omega
    · have : Nat.toDigitsCore 10 (fuel + 1) n [] =
          Nat.toDigitsCore 10 fuel (n / 10) [] ++ [Nat.digitChar (n % 10)] := by
        simp only [Nat.toDigitsCore, h, if_false]
        exact toDigitsCore_append fuel (n / 10) _
      rw [this, digits_value_append, ih (n / 10) (by omega), digits_value_digitChar _ _ hk]
      show 10 * (n / 10) + n % 10 = n
      omega

theorem decimal_ne_nil (n : Nat) : decimal n ≠ [] := by
  simp only [decimal, Nat.toDigits, Nat.toDigitsCore]
  by_cases h : n / 10 = 0
  · simp [h]
  · simp only [h, if_false]
    rw [toDigitsCore_append]
    simp

theorem decimal_digits (n : Nat) : ∀ c ∈ decimal n, isdigit c = true :=
  toDigitsCore_digits (n + 1) n

theorem decimal_value (n : Nat) : digits_value 0 (decimal n) = n :=
  toDigitsCore_value (n + 1) n (Nat.lt_succ_self n)

theorem decimal_length (n : Nat) (hn : n < 10 ^ 20) : (decimal n).length ≤ 20 :=
  Nat.toDigitsCore_length 10 (by decide) (n + 1) n 20 hn (by decide)

theorem takeWhile_isdigit (ds tail : List Char) (hds : ∀ d ∈ ds, isdigit d = true)
    (htail : ∀ c, tail.head? = some c → isdigit c = false) :
    (ds ++ tail).takeWhile isdigit = ds := by
  induction ds with
  | nil =>
    cases tail with
    | nil => rfl
    | cons c tail => simp [List.takeWhile_cons, htail c rfl]
  | cons d ds ih =>
    simp [List.takeWhile_cons, hds d (by simp), ih (fun d' h' => hds d' (List.mem_cons_of_mem _ h'))]

theorem isdigit_not_isspace (d : Char) (hd : isdigit d = true) : isspace d = false := by
  rw [Bool.eq_false_iff]
  intro h
  simp only [isspace, Bool.or_eq_true, decide_eq_true_eq] at h
  rcases h with ((((h | h) | h) | h) | h) | h <;>
    exact isdigit_ne d _ hd (by decide) h

/-- The conversion `%lu` reads back the decimal digits of a number that fits an
`unsigned long`, when no digit follows them. -/
theorem scan_lu_decimal (n : Nat) (tail : List Char) (hn : n ≤ ULONG_MAX)
    (htail : ∀ c, tail.head? = some c → isdigit c = false) :
    scan_lu (decimal n ++ tail) = some n := by
  obtain ⟨d, ds, hds⟩ := List.exists_cons_of_ne_nil (decimal_ne_nil n)
  have hd : isdigit d = true := decimal_digits n d (by rw [hds]; simp)
  have hsp : isspace d = false := isdigit_not_isspace d hd
  have hminus : d ≠ '-' := isdigit_ne d _ hd (by decide)
  have hplus : d ≠ '+' := isdigit_ne d _ hd (by decide)
  have htake := takeWhile_isdigit (decimal n) tail (decimal_digits n) htail
  have hval := decimal_value n
  rw [hds] at htake hval
  have hle : ¬ ULONG_MAX < digits_value 0 (d :: ds) := by omega
  simp only [scan_lu, hds, List.cons_append, List.dropWhile_cons, hsp, Bool.false_eq_true,
    if_false, List.head?_cons, Option.some.injEq, hminus, hplus, or_self]
  simp only [List.cons_append] at htake
  simp only [htake, hle, if_false, decide_False, Bool.false_eq_true]
  simp [hval]

theorem dropWhile_isspace_blanks (k : Nat) (d : Char) (rest : List Char)
    (hd : isspace d = false) :
    (List.replicate k ' ' ++ d :: rest).dropWhile isspace = d :: rest := by
  induction k with
  | zero => simp [List.dropWhile_cons, hd]
  | succ k ih =>
    have : isspace ' ' = true := by decide
    simp only [List.replicate_succ, List.cons_append, List.dropWhile_cons, this, if_true]
    exact ih

theorem sscanf_MemTotal_decimal (k n : Nat) (tail : List Char) (hn : n ≤ ULONG_MAX)
    (htail : ∀ c, tail.head? = some c → isdigit c = false) :
    sscanf_MemTotal ("MemTotal:".toList ++ (List.replicate k ' ' ++ (decimal n ++ tail))) =
      some n := by
  obtain ⟨d, ds, hds⟩ := List.exists_cons_of_ne_nil (decimal_ne_nil n)
  have hd : isdigit d = true := decimal_digits n d (by rw [hds]; simp)
  have hsp : isspace d = false := isdigit_not_isspace d hd
  have hpre : "MemTotal:".toList.isPrefixOf
      ("MemTotal:".toList ++ (List.replicate k ' ' ++ (decimal n ++ tail))) = true :=
    List.isPrefixOf_iff_prefix.mpr (List.prefix_append _ _)
  have hdrop : ("MemTotal:".toList ++ (List.replicate k ' ' ++ (decimal n ++ tail))).drop
      "MemTotal:".toList.length = List.replicate k ' ' ++ (decimal n ++ tail) :=
    List.drop_left _ _
  have hblank : (List.replicate k ' ' ++ (decimal n ++ tail)).dropWhile isspace =
      decimal n ++ tail := by
    rw [hds, List.cons_append]
    exact dropWhile_isspace_blanks k d _ hsp
  simp only [sscanf_MemTotal, hpre, if_true, hdrop, hblank]
  exact scan_lu_decimal n tail hn htail

theorem bit_length_le (fuel : Nat) :
    ∀ n k : Nat, n < 2 ^ k → bit_length fuel n ≤ k := by
  induction fuel with
  | zero => intro n k _; simp [bit_length]
  | succ fuel ih =>
    intro n k hn
    simp only [bit_length]
    by_cases h0 : n = 0
    · simp [h0]
    · simp only [h0, if_false]
      cases k with
      | zero => simp at hn; omega
      | succ k =>
        have := ih (n / 2) k (by rw [Nat.pow_succ] at hn; omega)
        omega

/-- An `unsigned long` of at most `2 ^ 53` is a `double`: the conversion is exact. -/
theorem ulong_to_double_exact (n : Nat) (hn : n ≤ 2 ^ 53) : ulong_to_double n = n := by
  rcases Nat.lt_or_eq_of_le hn with h | h
  · have hb : bit_length 64 n - 53 = 0 := by
      have := bit_length_le 64 n 53 h
      omega
    simp [ulong_to_double, hb, Nat.mod_one]
  · subst h
    decide

/-- The hundredths that `%.2f` prints are a nearest number of hundredths. -/
theorem round_hundredths_nearest (n : Nat) :
    nearest_hundredths n (round_hundredths n 1048576) := by
  have h1 := Nat.div_add_mod (100 * n) 1048576
  have h2 := Nat.mod_lt (100 * n) (by decide : 0 < 1048576)
  simp only [nearest_hundredths, round_hundredths]
  split_ifs <;> constructor <;> omega

theorem bit_length_zero (fuel : Nat) : bit_length fuel 0 = 0 := by
  cases fuel <;> simp [bit_length]

theorem bit_length_pow_le (fuel : Nat) :
    ∀ n : Nat, n ≠ 0 → 2 ^ (bit_length fuel n - 1) ≤ n := by
  induction fuel with
  | zero =>
    intro n hn
    simp only [bit_length, Nat.zero_sub, Nat.pow_zero]
    omega
  | succ fuel ih =>
    intro n hn
    simp only [bit_length, hn, if_false, Nat.add_sub_cancel]
    by_cases hb : bit_length fuel (n / 2) = 0
    · rw [hb, Nat.pow_zero]
      omega
    · have h2 : n / 2 ≠ 0 := by
        intro h
        rw [h, bit_length_zero] at hb
        exact hb rfl
      have h := ih (n / 2) h2
      have hsplit : bit_length fuel (n / 2) = (bit_length fuel (n / 2) - 1) + 1 := by omega
      rw [hsplit, Nat.pow_succ]
      omega

/-- The conversion to `double` changes an `unsigned long` by at most its `2 ^ 53`-th
part. -/
theorem ulong_to_double_rounded (n : Nat) : rounded_to_double n (ulong_to_double n) := by
  by_cases hsh : bit_length 64 n - 53 = 0
  · have : ulong_to_double n = n := by
      simp [ulong_to_double, hsh, Nat.mod_one]
    rw [this]
    simp [rounded_to_double]
  · have hn0 : n ≠ 0 := by
      rintro rfl
      exact hsh (by decide)
    have hlow := bit_length_pow_le 64 n hn0
    have hexp : bit_length 64 n - 1 = (bit_length 64 n - 53) + 52 := by omega
    rw [hexp, Nat.pow_add] at hlow
    have hdm := Nat.div_add_mod n (2 ^ (bit_length 64 n - 53))
    have hlt := Nat.mod_lt n (Nat.pos_pow_of_pos (bit_length 64 n - 53) (by decide : 0 < 2))
    have hmul : (n / 2 ^ (bit_length 64 n - 53) + 1) * 2 ^ (bit_length 64 n - 53) =
        2 ^ (bit_length 64 n - 53) * (n / 2 ^ (bit_length 64 n - 53)) +
          2 ^ (bit_length 64 n - 53) := by ring
    have hmul' : n / 2 ^ (bit_length 64 n - 53) * 2 ^ (bit_length 64 n - 53) =
        2 ^ (bit_length 64 n - 53) * (n / 2 ^ (bit_length 64 n - 53)) := by ring
    simp only [rounded_to_double, ulong_to_double]
    generalize 2 ^ (bit_length 64 n - 53) = P at *
    generalize P * (n / P) = X at *
    generalize n % P = r at *
    have h52 : (2 : Nat) ^ 52 = 4503599627370496 := by norm_num
    have h53 : (2 : Nat) ^ 53 = 9007199254740992 := by norm_num
    rw [h52] at hlow
    rw [h53]
    split_ifs <;> rw [hmul] at * <;> constructor <;> omega


theorem get_ram_info_loop_skip (buf : List Char) (more : List (List Char))
    (h : ¬ "MemTotal".toList <:+: cstr buf) :
    get_ram_info_loop (buf :: more) = get_ram_info_loop more := by
  have hs : strstr (cstr buf) "MemTotal".toList = none := (strstr_eq_none_iff _ _).mpr h
  simp only [get_ram_info_loop, hs]

theorem get_ram_info_loop_append (bufs more : List (List Char))
    (h : ∀ b ∈ bufs, ¬ "MemTotal".toList <:+: cstr b) :
    get_ram_info_loop (bufs ++ more) = get_ram_info_loop more := by
  induction bufs with
  | nil => rfl
  | cons b bufs ih =>
    rw [List.cons_append, get_ram_info_loop_skip b _ (h b (by simp))]
    exact ih (fun b' h' => h b' (List.mem_cons_of_mem _ h'))

theorem get_ram_info_loop_found (buf : List Char) (more : List (List Char))
    (h : "MemTotal".toList <:+: cstr buf) :
    get_ram_info_loop (buf :: more) = (sscanf_MemTotal (cstr buf)).getD 0 := by
  obtain ⟨r, hr⟩ := Option.ne_none_iff_exists'.mp (fun hn => (strstr_eq_none_iff _ _).mp hn h)
  simp only [get_ram_info_loop, hr]

/-- When no line of a text has "MemTotal", no buffer read from it has. -/
theorem get_ram_info_no_match (s : List Char)
    (hs : ∀ l ∈ text_lines s, ¬ "MemTotal".toList <:+: l) :
    ∀ b ∈ fgets_all 256 s, ¬ "MemTotal".toList <:+: cstr b := by
  intro b hb hm
  obtain ⟨-, l, hl, a, ha, hba⟩ := fgets_all_in_line s b hb
  exact hs l hl ((infix_of_infix_buffer _ a b (by decide) hba
    (hm.trans (cstr_initial b).isInfix)).trans ha)

theorem get_ram_info_before (before : List (List Char)) (rest : List Char)
    (hbefore : ∀ l ∈ before, '\n' ∉ l ∧ ¬ "MemTotal".toList <:+: l) :
    get_ram_info_loop (fgets_all 256 (unlines before ++ rest)) =
      get_ram_info_loop (fgets_all 256 rest) := by
  rw [fgets_all_unlines before rest (fun l h => (hbefore l h).1)]
  apply get_ram_info_loop_append
  apply get_ram_info_no_match
  rw [text_lines_unlines before (fun l h => (hbefore l h).1)]
  exact fun l h => (hbefore l h).2

theorem fgets_all_starts_within (p rest : List Char) (hp : '\n' ∉ p) (hlen : p.length ≤ 255)
    (hne : p ≠ []) :
    ∃ x more, x <+: rest ∧ fgets_all 256 (p ++ rest) = (p ++ x) :: more := by
  obtain ⟨x, hx⟩ := fgets_read_starts 255 p rest hp hlen
  have happ := fgets_read_append 255 (p ++ rest)
  rw [hx, List.append_assoc] at happ
  refine ⟨x, fgets_all 256 (fgets_read 255 (p ++ rest)).2,
    ⟨_, List.append_cancel_left happ⟩, ?_⟩
  rw [fgets_all_of_ne_nil _ (by simp [hne]), hx]

theorem head_of_initial (y r : List Char) (c : Char) (hy : y <+: c :: r) :
    ∀ c', y.head? = some c' → c' = c := by
  intro c' hc'
  cases y with
  | nil => simp at hc'
  | cons a y =>
    obtain ⟨t, ht⟩ := hy
    simp only [List.cons_append, List.cons.injEq] at ht
    simp only [List.head?_cons, Option.some.injEq] at hc'
    rw [← hc', ht.1]

/-- C4, as amended: when the first line of `/proc/meminfo` that has "MemTotal" is
`MemTotal:`, blanks, the decimal digits of a positive number `n` of kibibytes that fits an
`unsigned long`, and ` kB`, the digits ending within the first 255 bytes of the line, the
result is "RAM: ", a nearest decimal with two fractional digits to `d / 1048576`, written
with the decimal point of the locale, and " GB"; here `d` is `n` converted to `double`:
it is `n` for `n` up to `2 ^ 53` and differs from `n` by at most `n / 2 ^ 53` above. -/
theorem get_ram_info_total (decimal_point : List Char) (before : List (List Char))
    (k n : Nat) (post : List Char)
    (hbefore : ∀ l ∈ before, '\n' ∉ l ∧ ¬ "MemTotal".toList <:+: l)
    (hlen : ("MemTotal:".toList ++ List.replicate k ' ' ++ decimal n).length ≤ 255)
    (hpos : 0 < n) (hn : n ≤ ULONG_MAX) :
    ∃ d h : Nat, rounded_to_double n d ∧ (n ≤ 2 ^ 53 → d = n) ∧ nearest_hundredths d h ∧
      get_ram_info decimal_point (some (unlines before ++
        ("MemTotal:".toList ++ List.replicate k ' ' ++ decimal n ++ " kB".toList ++
          '\n' :: post))) =
        "RAM: ".toList ++ two_decimals decimal_point h ++ " GB".toList := by
  refine ⟨ulong_to_double n, round_hundredths (ulong_to_double n) 1048576,
    ulong_to_double_rounded n, ulong_to_double_exact n, round_hundredths_nearest _, ?_⟩
  have hdig := decimal_digits n
  have hp_nl : '\n' ∉ "MemTotal:".toList ++ List.replicate k ' ' ++ decimal n := by
    simp only [List.mem_append, not_or]
    refine ⟨⟨by decide, fun h => absurd (List.eq_of_mem_replicate h) (by decide)⟩, ?_⟩
    exact fun h => isdigit_ne _ _ (hdig _ h) (by decide) rfl
  have hp_nul : NUL ∉ "MemTotal:".toList ++ List.replicate k ' ' ++ decimal n := by
    simp only [List.mem_append, not_or]
    refine ⟨⟨by decide, fun h => absurd (List.eq_of_mem_replicate h) (by decide)⟩, ?_⟩
    exact fun h => isdigit_ne _ _ (hdig _ h) (by decide) rfl
  obtain ⟨x, more, hxpre, hx⟩ := fgets_all_starts_within
    ("MemTotal:".toList ++ List.replicate k ' ' ++ decimal n) (" kB".toList ++ '\n' :: post)
    hp_nl hlen (by simp [decimal_ne_nil])
  have htail : ∀ c, (cstr x).head? = some c → isdigit c = false := by
    intro c hc
    have hkb : " kB".toList ++ '\n' :: post = ' ' :: ("kB".toList ++ '\n' :: post) := rfl
    rw [hkb] at hxpre
    rw [head_of_initial (cstr x) _ ' ' ((cstr_initial x).trans hxpre) c hc]
    decide
  have hc : cstr (("MemTotal:".toList ++ List.replicate k ' ' ++ decimal n) ++ x) =
      "MemTotal:".toList ++ (List.replicate k ' ' ++ (decimal n ++ cstr x)) := by
    rw [cstr_append _ _ hp_nul, List.append_assoc, List.append_assoc]
  have hfound : "MemTotal".toList <:+:
      "MemTotal:".toList ++ (List.replicate k ' ' ++ (decimal n ++ cstr x)) :=
    ⟨[], ':' :: (List.replicate k ' ' ++ (decimal n ++ cstr x)), by simp [String.toList]⟩
  have hsplit : "MemTotal:".toList ++ List.replicate k ' ' ++ decimal n ++ " kB".toList ++
      '\n' :: post =
      ("MemTotal:".toList ++ List.replicate k ' ' ++ decimal n) ++
        (" kB".toList ++ '\n' :: post) := by
    rw [List.append_assoc _ " kB".toList]
  have hloop : get_ram_info_loop (fgets_all 256 (unlines before ++
      ("MemTotal:".toList ++ List.replicate k ' ' ++ decimal n ++ " kB".toList ++
        '\n' :: post))) = n := by
    rw [get_ram_info_before before _ hbefore, hsplit, hx,
      get_ram_info_loop_found _ _ (by rw [hc]; exact hfound), hc,
      sscanf_MemTotal_decimal k n _ hn htail]
    rfl
  simp only [get_ram_info, hloop, Nat.pos_iff_ne_zero.mp hpos, if_false]
  rfl

/-- Witness of C4: the example of the specification, 16777216 kB, after another line, in
a locale whose decimal point is a full stop. -/
theorem get_ram_info_total_witness :
    (∀ l ∈ ["MemFree:  1024 kB".toList], '\n' ∉ l ∧ ¬ "MemTotal".toList <:+: l) ∧
      ("MemTotal:".toList ++ List.replicate 1 ' ' ++ decimal 16777216).length ≤ 255 ∧
      0 < 16777216 ∧ 16777216 ≤ ULONG_MAX ∧
      (∃ d h : Nat, rounded_to_double 16777216 d ∧ (16777216 ≤ 2 ^ 53 → d = 16777216) ∧
        nearest_hundredths d h ∧
        get_ram_info ".".toList (some (unlines ["MemFree:  1024 kB".toList] ++
          ("MemTotal:".toList ++ List.replicate 1 ' ' ++ decimal 16777216 ++ " kB".toList ++
            '\n' :: "MemAvailable: 5 kB\n".toList))) =
          "RAM: ".toList ++ two_decimals ".".toList h ++ " GB".toList) ∧
      get_ram_info ".".toList (some "MemTotal: 16777216 kB\n".toList) =
        "RAM: 16.00 GB".toList :=
  ⟨by decide, by decide, by decide, by decide,
    get_ram_info_total ".".toList _ 1 16777216 _ (by decide) (by decide) (by decide)
      (by decide),
    by decide⟩

set_option maxRecDepth 100000 in
/-- Counterexample of C4, three inputs. In a locale whose decimal point is a comma,
16777216 kB gives "RAM: 16,00 GB". With 240 blanks before the number the buffer of 255
bytes ends after the digits `167772`, and the result is "RAM: 0.16 GB". The count
18014398509875199 (`2 ^ 54 + 3 * 2 ^ 17 - 1`) fits an `unsigned long` but is not a
`double`: the nearest `double` is 18014398509875200, whose quotient by 1048576 is
17179869184.375 and is printed as 17179869184.38, while 18014398509875199 / 1048576 is
17179869184.37499..., for which every nearest decimal with two fractional digits, and also
the decimal cut after two fractional digits, is 17179869184.37. -/
theorem get_ram_info_total_counterexample :
    (get_ram_info ",".toList (some "MemTotal: 16777216 kB\n".toList) =
        "RAM: 16,00 GB".toList ∧
      get_ram_info ",".toList (some "MemTotal: 16777216 kB\n".toList) ≠
        "RAM: 16.00 GB".toList) ∧
    (get_ram_info ".".toList (some ("MemTotal:".toList ++ List.replicate 240 ' ' ++
        decimal 16777216 ++ " kB\n".toList)) = "RAM: 0.16 GB".toList ∧
      get_ram_info ".".toList (some ("MemTotal:".toList ++ List.replicate 240 ' ' ++
        decimal 16777216 ++ " kB\n".toList)) ≠ "RAM: 16.00 GB".toList) ∧
    (0 < 18014398509875199 ∧ 18014398509875199 ≤ ULONG_MAX ∧
      get_ram_info ".".toList
          (some ("MemTotal: ".toList ++ decimal 18014398509875199 ++ " kB\n".toList)) =
        "RAM: 17179869184.38 GB".toList ∧
      (∀ h : Nat, nearest_hundredths 18014398509875199 h →
        "RAM: ".toList ++ two_decimals ".".toList h ++ " GB".toList =
          "RAM: 17179869184.37 GB".toList) ∧
      "RAM: ".toList ++ two_decimals ".".toList (100 * 18014398509875199 / 1048576) ++
          " GB".toList = "RAM: 17179869184.37 GB".toList) := by
  refine ⟨by decide, by decide, by decide, by decide, by decide, ?_, by decide⟩
  intro h hh
  have : h = 1717986918437 := by
    simp only [nearest_hundredths] at hh
    omega
  subst this
  decide

/-! ## The graphics adapter: `get_gpu_info` -/

theorem dropWhile_blanks (k : Nat) (s : List Char) (hs : s.head? ≠ some ' ') :
    (List.replicate k ' ' ++ s).dropWhile (fun c => decide (c = ' ')) = s := by
  induction k with
  | zero =>
    cases s with
    | nil => rfl
    | cons c s =>
      have hc : c ≠ ' ' := by simpa using hs
      simp [List.dropWhile_cons, hc]
  | succ k ih =>
    simp only [List.replicate_succ, List.cons_append, List.dropWhile_cons, decide_True, if_true]
    exact ih

/-- C1, as amended: when the first line of the command output has the marker
"VGA compatible controller:" (at its first occurrence), blanks, a text `name` that does not
begin with a blank and has no opening parenthesis (and no newline or NUL byte), and an
opening parenthesis within its first 255 bytes, the result is "GPU: " followed by `name`,
that is the text after the marker and the blanks up to the opening parenthesis: a blank
before the parenthesis is kept. -/
theorem get_gpu_info_name (pre : List Char) (k : Nat) (name rest : List Char)
    (hfirst : ¬ "VGA compatible controller:".toList <:+:
      pre ++ "VGA compatible controller:".toList.dropLast)
    (hpre : '\n' ∉ pre ∧ NUL ∉ pre)
    (hname : '(' ∉ name ∧ '\n' ∉ name ∧ NUL ∉ name ∧ name.head? ≠ some ' ')
    (hlen : (pre ++ "VGA compatible controller:".toList ++ List.replicate k ' ' ++ name ++
      ['(']).length ≤ 255) :
    get_gpu_info (some (pre ++ "VGA compatible controller:".toList ++ List.replicate k ' ' ++
      name ++ '(' :: rest)) = "GPU: ".toList ++ name := by
  obtain ⟨hparen, hnl, hnul, hhead⟩ := hname
  have hblank_nl : '\n' ∉ List.replicate k ' ' :=
    fun h => absurd (List.eq_of_mem_replicate h) (by decide)
  have hblank_nul : NUL ∉ List.replicate k ' ' :=
    fun h => absurd (List.eq_of_mem_replicate h) (by decide)
  have hp_nl : '\n' ∉ pre ++ "VGA compatible controller:".toList ++ List.replicate k ' ' ++
      name ++ ['('] := by
    simp only [List.mem_append, not_or]
    exact ⟨⟨⟨⟨hpre.1, by decide⟩, hblank_nl⟩, hnl⟩, by decide⟩
  have hp_nul : NUL ∉ pre ++ "VGA compatible controller:".toList ++ List.replicate k ' ' ++
      name ++ ['('] := by
    simp only [List.mem_append, not_or]
    exact ⟨⟨⟨⟨hpre.2, by decide⟩, hblank_nul⟩, hnul⟩, by decide⟩
  obtain ⟨x, hx⟩ := fgets_read_starts 255 _ rest hp_nl hlen
  have hout : pre ++ "VGA compatible controller:".toList ++ List.replicate k ' ' ++ name ++
      '(' :: rest = (pre ++ "VGA compatible controller:".toList ++ List.replicate k ' ' ++
      name ++ ['(']) ++ rest := by simp
  have hfgets : fgets 256 ((pre ++ "VGA compatible controller:".toList ++
      List.replicate k ' ' ++ name ++ ['(']) ++ rest) =
      some (fgets_read 255 ((pre ++ "VGA compatible controller:".toList ++
        List.replicate k ' ' ++ name ++ ['(']) ++ rest)) := by
    cases h : (pre ++ "VGA compatible controller:".toList ++ List.replicate k ' ' ++ name ++
        ['(']) ++ rest with
    | nil => simp at h
    | cons c s => rfl
  have hc : cstr ((pre ++ "VGA compatible controller:".toList ++ List.replicate k ' ' ++
      name ++ ['(']) ++ x) =
      pre ++ "VGA compatible controller:".toList ++
        (List.replicate k ' ' ++ (name ++ '(' :: cstr x)) := by
    rw [cstr_append _ _ hp_nul]
    simp
  have hstr := strstr_first pre "VGA compatible controller:".toList
    (List.replicate k ' ' ++ (name ++ '(' :: cstr x)) (by decide) hfirst
  have hdrop : ("VGA compatible controller:".toList ++
      (List.replicate k ' ' ++ (name ++ '(' :: cstr x))).drop
      "VGA compatible controller:".toList.length =
      List.replicate k ' ' ++ (name ++ '(' :: cstr x) := List.drop_left _ _
  have hskip := dropWhile_blanks k (name ++ '(' :: cstr x) (by
    cases name with
    | nil => simp
    | cons c name => simpa using hhead)
  have hch : strchr (name ++ '(' :: cstr x) '(' = some ('(' :: cstr x) :=
    strchr_first _ _ _ hparen
  have hcut : terminate_at (name ++ '(' :: cstr x)
      ((name ++ '(' :: cstr x).length - ('(' :: cstr x).length) = name := by
    simp [terminate_at]
  have hline : terminate_at name (strcspn name "\n".toList) = name := by
    rw [terminate_at_newline, takeWhile_newline_self name hnl]
  rw [hout]
  simp only [get_gpu_info, hfgets, hx, hc, hstr, hdrop, hskip, hch, hcut, hline]

/-- Witness of C1: the line of the specification; the name ends with the blank that
precedes the parenthesis. -/
theorem get_gpu_info_name_witness :
    ¬ "VGA compatible controller:".toList <:+:
        "01:00.0 ".toList ++ "VGA compatible controller:".toList.dropLast ∧
      ('\n' ∉ "01:00.0 ".toList ∧ NUL ∉ "01:00.0 ".toList) ∧
      ('(' ∉ "NVIDIA Corporation Device 2484 ".toList ∧
        '\n' ∉ "NVIDIA Corporation Device 2484 ".toList ∧
        NUL ∉ "NVIDIA Corporation Device 2484 ".toList ∧
        "NVIDIA Corporation Device 2484 ".toList.head? ≠ some ' ') ∧
      ("01:00.0 ".toList ++ "VGA compatible controller:".toList ++ List.replicate 1 ' ' ++
        "NVIDIA Corporation Device 2484 ".toList ++ ['(']).length ≤ 255 ∧
      get_gpu_info (some ("01:00.0 ".toList ++ "VGA compatible controller:".toList ++
        List.replicate 1 ' ' ++ "NVIDIA Corporation Device 2484 ".toList ++
        '(' :: "rev a1)\n".toList)) = "GPU: ".toList ++ "NVIDIA Corporation Device 2484 ".toList :=
  ⟨by decide, by decide, by decide, by decide,
    get_gpu_info_name _ 1 _ _ (by decide) (by decide) (by decide) (by decide)⟩

/-- Counterexample of C1: for the line of the specification the result is
"GPU: NVIDIA Corporation Device 2484 " with the blank that precedes the parenthesis, not
"GPU: NVIDIA Corporation Device 2484". -/
theorem get_gpu_info_name_counterexample :
    get_gpu_info (some
        "01:00.0 VGA compatible controller: NVIDIA Corporation Device 2484 (rev a1)\n".toList) =
        "GPU: NVIDIA Corporation Device 2484 ".toList ∧
      get_gpu_info (some
        "01:00.0 VGA compatible controller: NVIDIA Corporation Device 2484 (rev a1)\n".toList) ≠
        "GPU: NVIDIA Corporation Device 2484".toList := by
  decide

/-! ## The fallback strings -/

theorem get_cpu_info_loop_none (bufs : List (List Char))
    (h : ∀ b ∈ bufs, ¬ ("model name".toList <:+: cstr b ∧ ':' ∈ cstr b)) :
    get_cpu_info_loop bufs = none := by
  have := get_cpu_info_loop_append bufs [] h
  rwa [List.append_nil] at this

theorem get_ram_info_loop_zero (bufs : List (List Char))
    (h : ∀ b ∈ bufs, ¬ "MemTotal".toList <:+: cstr b) : get_ram_info_loop bufs = 0 := by
  have := get_ram_info_loop_append bufs [] h
  rwa [List.append_nil] at this

/-- When every line of a text has at most 254 bytes and none begins with `PRETTY_NAME=`,
no buffer read from it begins with `PRETTY_NAME=`. -/
theorem get_distro_info_no_match (s : List Char)
    (hs : ∀ l ∈ text_lines s, l.length ≤ 254 ∧ ¬ "PRETTY_NAME=".toList <+: l) :
    ∀ b ∈ fgets_all 256 s, ¬ "PRETTY_NAME=".toList <+: cstr b := by
  intro b hb hp
  obtain ⟨l, hl, hbl⟩ := fgets_all_whole_line s (fun l h => (hs l h).1) b hb
  exact (hs l hl).2 (prefix_of_prefix_buffer _ l b (by decide) hbl (hp.trans (cstr_initial b)))

/-- C5, as amended: each lookup returns its fallback string when its source is missing or
has not what it looks for. `get_cpu_info` returns "CPU: Unknown" when the file cannot be
opened or no line has both "model name" and a colon. `get_ram_info` returns
"RAM: Unknown" when the file cannot be opened, when no line has "MemTotal", or when, after
lines without "MemTotal", `fgets` reads a line with "MemTotal" for which `sscanf` stores
no positive number. `get_distro_info` returns "Distro: Unknown" when the file cannot be
opened, or when no line begins with `PRETTY_NAME=` and every line has at most 254 bytes.
`get_gpu_info` returns "GPU: Unknown" when the command cannot be started or gives no
output. -/
theorem lookup_fallback (decimal_point cpu ram distro : List Char)
    (before : List (List Char)) (rest buf tail : List Char)
    (hcpu : ∀ l ∈ text_lines cpu, ¬ ("model name".toList <:+: l ∧ ':' ∈ l))
    (hram : ∀ l ∈ text_lines ram, ¬ "MemTotal".toList <:+: l)
    (hbefore : ∀ l ∈ before, '\n' ∉ l ∧ ¬ "MemTotal".toList <:+: l)
    (hbuf : fgets 256 rest = some (buf, tail))
    (hmem : "MemTotal".toList <:+: cstr buf)
    (hparse : sscanf_MemTotal (cstr buf) = none ∨ sscanf_MemTotal (cstr buf) = some 0)
    (hdistro : ∀ l ∈ text_lines distro, l.length ≤ 254 ∧ ¬ "PRETTY_NAME=".toList <+: l) :
    (get_cpu_info none = some "CPU: Unknown".toList ∧
      get_cpu_info (some cpu) = some "CPU: Unknown".toList) ∧
    (get_ram_info decimal_point none = "RAM: Unknown".toList ∧
      get_ram_info decimal_point (some ram) = "RAM: Unknown".toList ∧
      get_ram_info decimal_point (some (unlines before ++ rest)) = "RAM: Unknown".toList) ∧
    (get_distro_info none = "Distro: Unknown".toList ∧
      get_distro_info (some distro) = "Distro: Unknown".toList) ∧
    (get_gpu_info none = "GPU: Unknown".toList ∧
      get_gpu_info (some []) = "GPU: Unknown".toList) := by
  refine ⟨⟨rfl, ?_⟩, ⟨rfl, ?_, ?_⟩, ⟨rfl, ?_⟩, ⟨rfl, rfl⟩⟩
  · simp only [get_cpu_info, get_cpu_info_loop_none _ (get_cpu_info_no_match cpu hcpu)]
  · simp only [get_ram_info, get_ram_info_loop_zero _ (get_ram_info_no_match ram hram), if_true]
  · have hall : fgets_all 256 rest = buf :: fgets_all 256 tail := by
      cases rest with
      | nil => simp [fgets] at hbuf
      | cons c rest =>
        simp only [fgets, Option.some.injEq] at hbuf
        rw [fgets_all_cons, hbuf]
    have hloop : get_ram_info_loop (fgets_all 256 (unlines before ++ rest)) = 0 := by
      rw [get_ram_info_before before _ hbefore, hall, get_ram_info_loop_found _ _ hmem]
      rcases hparse with h | h <;> rw [h] <;> rfl
    simp only [get_ram_info, hloop, if_true]
  · simp only [get_distro_info,
      get_distro_info_loop_none _ (get_distro_info_no_match distro hdistro)]

/-- Witness of C5: files without the lines looked for, and a `MemTotal` line without a
number, followed by one with a number. -/
theorem lookup_fallback_witness :
    (∀ l ∈ text_lines "processor\t: 0\nmodel name\nflags\t: fpu\n".toList,
        ¬ ("model name".toList <:+: l ∧ ':' ∈ l)) ∧
      (∀ l ∈ text_lines "MemFree: 1 kB\nCached: 2 kB\n".toList, ¬ "MemTotal".toList <:+: l) ∧
      (∀ l ∈ ["MemFree: 1 kB".toList], '\n' ∉ l ∧ ¬ "MemTotal".toList <:+: l) ∧
      fgets 256 "MemTotal: unknown\nMemTotal: 5 kB\n".toList =
        some ("MemTotal: unknown\n".toList, "MemTotal: 5 kB\n".toList) ∧
      "MemTotal".toList <:+: cstr "MemTotal: unknown\n".toList ∧
      (sscanf_MemTotal (cstr "MemTotal: unknown\n".toList) = none ∨
        sscanf_MemTotal (cstr "MemTotal: unknown\n".toList) = some 0) ∧
      (∀ l ∈ text_lines "NAME=Arch\nID=arch\n".toList,
        l.length ≤ 254 ∧ ¬ "PRETTY_NAME=".toList <+: l) ∧
      ((get_cpu_info none = some "CPU: Unknown".toList ∧
        get_cpu_info (some "processor\t: 0\nmodel name\nflags\t: fpu\n".toList) =
          some "CPU: Unknown".toList) ∧
      (get_ram_info ".".toList none = "RAM: Unknown".toList ∧
        get_ram_info ".".toList (some "MemFree: 1 kB\nCached: 2 kB\n".toList) =
          "RAM: Unknown".toList ∧
        get_ram_info ".".toList (some (unlines ["MemFree: 1 kB".toList] ++
          "MemTotal: unknown\nMemTotal: 5 kB\n".toList)) = "RAM: Unknown".toList) ∧
      (get_distro_info none = "Distro: Unknown".toList ∧
        get_distro_info (some "NAME=Arch\nID=arch\n".toList) = "Distro: Unknown".toList) ∧
      (get_gpu_info none = "GPU: Unknown".toList ∧
        get_gpu_info (some []) = "GPU: Unknown".toList)) :=
  ⟨by decide, by decide, by decide, by decide, by decide, by decide, by decide,
    lookup_fallback ".".toList _ _ _ _ "MemTotal: unknown\nMemTotal: 5 kB\n".toList
      "MemTotal: unknown\n".toList "MemTotal: 5 kB\n".toList (by decide) (by decide) (by decide)
      (by decide) (by decide) (by decide) (by decide)⟩

set_option maxRecDepth 100000 in
/-- Counterexample of C5: a file of one line, 255 bytes `x` followed by
`PRETTY_NAME="evil"`. No line begins with `PRETTY_NAME=`, but the second call of `fgets`
gives the rest of the line, and the result is "Distro: evil". -/
theorem lookup_fallback_counterexample :
    (∀ l ∈ text_lines (List.replicate 255 'x' ++ "PRETTY_NAME=\"evil\"\n".toList),
        ¬ "PRETTY_NAME=".toList <+: l) ∧
      get_distro_info (some (List.replicate 255 'x' ++ "PRETTY_NAME=\"evil\"\n".toList)) =
        "Distro: evil".toList ∧
      get_distro_info (some (List.replicate 255 'x' ++ "PRETTY_NAME=\"evil\"\n".toList)) ≠
        "Distro: Unknown".toList := by
  decide

/-! ## Further facts -/

/-- The byte after the colon is skipped whatever it is: `get_cpu_info` computes
`colon + 2` without a test, where `get_gpu_info` skips blanks with a test. -/
theorem get_cpu_info_no_blank :
    get_cpu_info (some "model name:Intel\n".toList) = some "CPU: ntel".toList := by
  decide

/-- When the colon is the last byte of the line read, `colon + 2` points behind the
terminating NUL and the result is not defined by the program. -/
theorem get_cpu_info_colon_last : get_cpu_info (some "model name:".toList) = none := by
  decide

end UpdateProgram
